import Mathlib

/-!
Verification development for the Endfield mod loader core
(`launcher/core/config.py`, `launcher/core/mods.py`,
`launcher/core/active_pack.py`, `launcher/core/deploy.py`).

Modelling conventions:
* Filesystem paths are lists of segments (`Segs`), mirroring `pathlib`
  semantics: joining drops empty and `"."` components and keeps `".."`.
  Where the Python source manipulates path *strings* (`replace`,
  `startswith`, `strip`), the model works on the string and converts with
  `splitSlash` / `joinSegs` exactly where the source converts.
* A directory tree is a flat list of `(path, content)` pairs for its
  files; file contents are opaque `Nat` identifiers (`shutil.copy2` moves
  bytes verbatim, so only identity of contents matters).  A directory
  exists iff some file lies strictly below it; empty directories are not
  representable, which is adequate here because every scanned candidate
  must contain at least one real file.
* Python dicts are association lists in insertion order (`getA` / `setA` /
  `removeA` below reproduce lookup, in-place update-or-append, and `del`).
* The receipt's `backup` value `f"backup/{rel_game_path}"` is stored as
  the destination path itself (the `"backup/"` prefix is a fixed constant,
  so the key under the backup store determines the string and vice versa).
* Destinations of the asset deploy are modelled at file granularity; a
  directory-valued destination is copied wholesale by `copytree` in both
  backup and restore, so it behaves as a single opaque object, like a file.
-/

/-- Path segments, mirroring `pathlib.PurePath.parts` (relative paths). -/
abbrev Segs := List String

/-! ## Character-level string primitives (Python `str` methods) -/

/-- Python `s.replace("\\", "/")`, characterwise. -/
def normSlashes (s : String) : String :=
  String.mk (s.toList.map (fun c => if c = '\\' then '/' else c))

/-- Python `s.strip()` (default whitespace stripping). -/
def stripWS (s : String) : String :=
  String.mk (((s.toList.dropWhile Char.isWhitespace).reverse.dropWhile Char.isWhitespace).reverse)

/-- Python `s.lower()` (ASCII case folding suffices for the names used here). -/
def lowerStr (s : String) : String :=
  String.mk (s.toList.map Char.toLower)

/-- Python `s.upper()`. -/
def upperStr (s : String) : String :=
  String.mk (s.toList.map Char.toUpper)

/-- Python `s.lstrip("/")`. -/
def lstripSlashes (s : String) : String :=
  String.mk (s.toList.dropWhile (· = '/'))

/-- Python `s.strip("/")`. -/
def stripSlashes (s : String) : String :=
  String.mk (((s.toList.dropWhile (· = '/')).reverse.dropWhile (· = '/')).reverse)

/-- Python `s.startswith(p)`. -/
def strStartsWith (s p : String) : Bool :=
  p.toList.isPrefixOf s.toList

/-- Contiguous-substring test on character lists. -/
def chInfixOf (p : List Char) : List Char → Bool
  | [] => p.isEmpty
  | c :: rest => p.isPrefixOf (c :: rest) || chInfixOf p rest

/-- Python `p in s` (substring containment). -/
def strContainsSub (s p : String) : Bool :=
  chInfixOf p.toList s.toList

/-- Python `entry[:-1] if entry.endswith("/") else entry`. -/
def dropTrailingSlash (s : String) : String :=
  match s.toList.getLast? with
  | some '/' => String.mk s.toList.dropLast
  | _ => s

/-! ## Splitting and joining slash-separated paths -/

/-- Split a character list on `'/'`, keeping empty pieces (raw split). -/
def splitRaw : List Char → List (List Char)
  | [] => [[]]
  | c :: cs =>
      if c = '/' then [] :: splitRaw cs
      else
        match splitRaw cs with
        | [] => [[c]]
        | s :: ss => (c :: s) :: ss

/-- Rejoin the raw pieces with `'/'` separators. -/
def joinRaw : List (List Char) → List Char
  | [] => []
  | [s] => s
  | s :: t :: ss => s ++ '/' :: joinRaw (t :: ss)

/-- Effective path components: raw pieces with `""` and `"."` dropped,
exactly what `pathlib` keeps when normalizing a joined path string. -/
def effSegsCh (cs : List Char) : List (List Char) :=
  (splitRaw cs).filter (fun s => s ≠ [] ∧ s ≠ ['.'])

/-- `pathlib`-style components of a slash-joined relative path string. -/
def splitSlash (s : String) : Segs :=
  (effSegsCh s.toList).map String.mk

/-- Slash-join of path components, the `str()` of a relative `pathlib` path. -/
def joinSegs (l : Segs) : String :=
  String.mk (joinRaw (l.map String.toList))

/-- Scan components keeping a depth counter; `true` iff some `".."` step
would climb above the starting directory. -/
def escScanCh : List (List Char) → Nat → Bool
  | [], _ => false
  | s :: rest, d =>
      if s = ['.', '.'] then (if d = 0 then true else escScanCh rest (d - 1))
      else escScanCh rest (d + 1)

/-- Modelled from the spec's wording: a relative path entry "resolves
outside" its base folder iff following its effective components ever
climbs above the base. -/
def escapesRel (s : String) : Bool :=
  escScanCh (effSegsCh s.toList) 0

/-! ## Association lists (Python `dict` in insertion order) -/

/-- `d.get(k)` / `d[k]`: first (unique) binding of `k`. -/
def getA {κ α : Type} [DecidableEq κ] : List (κ × α) → κ → Option α
  | [], _ => none
  | (k', v) :: rest, k => if k' = k then some v else getA rest k

/-- `d[k] = v`: replace the first binding in place, else append. -/
def setA {κ α : Type} [DecidableEq κ] : List (κ × α) → κ → α → List (κ × α)
  | [], k, v => [(k, v)]
  | (k', v') :: rest, k, v =>
      if k' = k then (k, v) :: rest else (k', v') :: setA rest k v

/-- `del d[k]`: drop the first binding of `k`. -/
def removeA {κ α : Type} [DecidableEq κ] : List (κ × α) → κ → List (κ × α)
  | [], _ => []
  | (k', v') :: rest, k => if k' = k then rest else (k', v') :: removeA rest k

/-- Order-preserving deduplication keeping first occurrences, the key
order of a Python dict built by repeated insertion. -/
def firstDedupAux {α : Type} [DecidableEq α] : List α → List α → List α
  | [], _ => []
  | x :: xs, seen =>
      if x ∈ seen then firstDedupAux xs seen else x :: firstDedupAux xs (x :: seen)

/-- `dict.fromkeys(l)`-style first-occurrence deduplication. -/
def firstDedup {α : Type} [DecidableEq α] (l : List α) : List α :=
  firstDedupAux l []

/-- Insert into a list sorted by the boolean order `le`. -/
def insertBy {α : Type} (le : α → α → Bool) (x : α) : List α → List α
  | [] => [x]
  | y :: ys => if le x y then x :: y :: ys else y :: insertBy le x ys

/-- Insertion sort by `le`, modelling Python's `sorted(..., key=...)`
(only membership and stability-irrelevant facts are used). -/
def insSortBy {α : Type} (le : α → α → Bool) : List α → List α
  | [] => []
  | x :: xs => insertBy le x (insSortBy le xs)

/-- Lexicographic order on character lists (Python string comparison by
code point), written to evaluate by kernel reduction. -/
def chLe : List Char → List Char → Bool
  | [], _ => true
  | _ :: _, [] => false
  | a :: as, b :: bs => if a = b then chLe as bs else decide (a.toNat < b.toNat)

/-- Python `a <= b` on strings. -/
def strLeB (a b : String) : Bool :=
  chLe a.toList b.toList

/-- `sorted(strings)`. -/
def sortStrings (l : List String) : List String :=
  insSortBy strLeB l

/-- Concatenation of images, used where the source loops and accumulates. -/
def concatMap {α β : Type} (f : α → List β) : List α → List β
  | [] => []
  | x :: xs => f x ++ concatMap f xs

/-! ## `launcher/core/config.py` — `AppConfig` -/

/-- `AppConfig.is_enabled`: membership of the backslash-normalized path in
`enabled_mods`. -/
def isEnabled (enabledMods : List String) (relPath : String) : Bool :=
  decide (normSlashes relPath ∈ enabledMods)

/-- `AppConfig.set_enabled`: append when enabling a missing path, remove
the first occurrence when disabling a present one, in that order. -/
def setEnabled (cfg : List String) (relPath : String) (enabled : Bool) : List String :=
  let r := normSlashes relPath
  let cfg1 := if enabled = true ∧ r ∉ cfg then cfg ++ [r] else cfg
  if enabled = false ∧ r ∈ cfg1 then cfg1.erase r else cfg1

/-- The non-path configuration state carried by `AppConfig`. -/
structure AppConfigData where
  enabled_mods : List String
  game_exe : Option String
  current_preset : String
  deriving DecidableEq, Repr

/-- `AppConfig._preset_path` / `load_preset` name normalization:
`str(name).strip().upper()`, anything other than A, B, C becomes A. -/
def normPresetName (name : String) : String :=
  let n := upperStr (stripWS name)
  if n = "A" ∨ n = "B" ∨ n = "C" then n else "A"

/-- `AppConfig.load_preset`.  `presetFiles` maps a normalized preset name
to the parsed `enabled_mods` list of an existing `preset_<name>.json`;
a missing key is a missing file.  The returned flag records that
`self.save()` ran (it runs unconditionally). -/
def loadPreset (presetFiles : List (String × List String)) (cfg : AppConfigData)
    (name : String) : AppConfigData × Bool :=
  let n := normPresetName name
  match getA presetFiles n with
  | some lst =>
      ({ cfg with enabled_mods := lst.map normSlashes, current_preset := n }, true)
  | none =>
      ({ cfg with enabled_mods := [], current_preset := n }, true)

/-! ## `launcher/core/deploy.py` — asset-replacement deploy with receipt -/

/-- `_ALLOWED_ASSET_ROOTS` (deploy.py), trailing slashes included. -/
def ALLOWED_ASSET_ROOTS : List String :=
  ["Endfield_Data/", "resources/", "game_files/", "translations/", "plugins/"]

/-- `_is_allowed_asset_relpath`: normalize separators, strip leading
slashes, test the allow-listed root prefixes. -/
def isAllowedAssetRelpath (relGamePath : String) : Bool :=
  let n := lstripSlashes (normSlashes relGamePath)
  ALLOWED_ASSET_ROOTS.any (fun root => strStartsWith n root)

/-- One `files` entry of the asset receipt:
`{"backup": relPath|null, "mods": [modId, ...]}`.  The backup value
`"backup/" + destination` is stored as the destination path itself. -/
structure Entry where
  backup : Option Segs
  mods : List String
  deriving DecidableEq, Repr

/-- The mutable state the asset deploy/restore protocol acts on:
the game tree under `game_root`, the backup store under
`deploy/backup/`, and the receipt's `files` map. -/
structure AState where
  game : List (Segs × Nat)
  backupStore : List (Segs × Nat)
  filesMap : List (Segs × Entry)
  deriving DecidableEq, Repr

/-- `_backup_original_once` on the model state: nothing at the
destination means no backup; an existing backup file is left alone;
otherwise the *current* on-disk content is copied into the store.
Returns the recorded backup reference and the updated store. -/
def backupOriginalOnce (game store : List (Segs × Nat)) (q : Segs) :
    Option Segs × List (Segs × Nat) :=
  match getA game q with
  | none => (none, store)
  | some cur =>
      match getA store q with
      | some _ => (some q, store)
      | none => (some q, setA store q cur)

/-- Parsed `manifest.json` content (only the fields the core reads).
`copy = none` models an absent or non-list `copy` field. -/
structure Manifest where
  mtype : Option String
  copy : Option (List String)
  deriving DecidableEq, Repr

/-- One mod folder: its manifest (if a readable `manifest.json` exists)
and its files, with paths relative to the mod folder. -/
structure ModDir where
  manifest : Option Manifest
  files : List (Segs × Nat)
  deriving DecidableEq, Repr

/-- The mods root: mod folders keyed by their root-relative components. -/
abbrev ModsRoot := List (Segs × ModDir)

/-- `rel.replace("\\", "/").strip("/")` — the `rel_norm` mod identifier
used by the deploy and the conflict detectors. -/
def relNorm (rel : String) : String :=
  stripSlashes (normSlashes rel)

/-- The file collection loop of `deploy_assets_with_receipt`: every file
below the mod whose mod-relative path passes the asset allow-list. -/
def modAssetFiles (root : ModsRoot) (rel : String) : List (Segs × Nat) :=
  match getA root (splitSlash (relNorm rel)) with
  | none => []
  | some d => d.files.filter (fun f => isAllowedAssetRelpath (joinSegs f.1))

/-- The receipt entry `deploy_assets_with_receipt` writes for
destination `q`: `backup` is overwritten only by a fresh non-null
capture, `mods` gets the deploying mod appended without duplicates. -/
def deployNewEntry (st : AState) (reln : String) (q : Segs) : Entry :=
  ⟨match (backupOriginalOnce st.game st.backupStore q).1 with
   | some b => some b
   | none => ((getA st.filesMap q).getD ⟨none, []⟩).backup,
   if reln ∈ ((getA st.filesMap q).getD ⟨none, []⟩).mods then
     ((getA st.filesMap q).getD ⟨none, []⟩).mods
   else ((getA st.filesMap q).getD ⟨none, []⟩).mods ++ [reln]⟩

/-- The per-file body of `deploy_assets_with_receipt`: capture the
backup once, update the receipt entry, then copy the mod file over the
destination. -/
def deployAssetFile (st : AState) (reln : String) (f : Segs × Nat) : AState :=
  { game := setA st.game f.1 f.2
    backupStore := (backupOriginalOnce st.game st.backupStore f.1).2
    filesMap := setA st.filesMap f.1 (deployNewEntry st reln f.1) }

/-- The per-mod body of `deploy_assets_with_receipt` (a vanished mod
folder is skipped; a mod with no allow-listed files contributes nothing). -/
def deployAssetMod (root : ModsRoot) (st : AState) (rel : String) : AState :=
  (modAssetFiles root rel).foldl (fun s f => deployAssetFile s (relNorm rel) f) st

/-- `deploy_assets_with_receipt`: process the enabled mods in order
against the shared state; the receipt is persisted at the end (the
persisted value is the resulting `filesMap`). -/
def deployAssetsWithReceipt (root : ModsRoot) (enabled : List String) (st : AState) : AState :=
  enabled.foldl (deployAssetMod root) st

/-- The body of the restore loop for one receipt entry: copy the
still-present backup over the destination, skip a vanished backup,
delete a mod-created (backup-less) destination if it exists. -/
def restoreEntryStep (store : List (Segs × Nat)) (acc : List (Segs × Nat) × Nat)
    (pe : Segs × Entry) : List (Segs × Nat) × Nat :=
  match pe.2.backup with
  | some b =>
      match getA store b with
      | some c => (setA acc.1 pe.1 c, acc.2 + 1)
      | none => acc
  | none =>
      match getA acc.1 pe.1 with
      | some _ => (removeA acc.1 pe.1, acc.2 + 1)
      | none => acc

/-- `restore_assets_with_receipt` (with `clear_receipt=True`): an empty
`files` map restores nothing and returns 0; otherwise the entries are
folded through `restoreEntryStep` and the receipt is cleared at the end.
Returns the new state and the restored count. -/
def restoreAssetsWithReceipt (st : AState) : AState × Nat :=
  if st.filesMap = [] then (st, 0)
  else
    ({ game := (st.filesMap.foldl (restoreEntryStep st.backupStore) (st.game, 0)).1,
       backupStore := st.backupStore,
       filesMap := [] },
     (st.filesMap.foldl (restoreEntryStep st.backupStore) (st.game, 0)).2)

/-- The writer-recording loop of `detect_enabled_asset_conflicts`:
`(rel_game_path, rel_norm)` pairs for every allow-listed file of every
existing enabled mod. -/
def assetWriterPairs (root : ModsRoot) (enabled : List String) : List (String × String) :=
  concatMap
    (fun rel =>
      match getA root (splitSlash (relNorm rel)) with
      | none => []
      | some d =>
          d.files.filterMap (fun f =>
            if isAllowedAssetRelpath (joinSegs f.1) then some (joinSegs f.1, relNorm rel)
            else none))
    enabled

/-- `detect_enabled_asset_conflicts`: group writers by destination,
keep paths with at least two distinct contributing mods (sorted), and
sort the conflict list by path. -/
def detectEnabledAssetConflicts (root : ModsRoot) (enabled : List String) :
    List (String × List String) :=
  let pairs := assetWriterPairs root enabled
  let keys := firstDedup (pairs.map (·.1))
  insSortBy (fun a b => strLeB a.1 b.1)
    ((keys.map (fun k =>
        (k, sortStrings (firstDedup (pairs.filterMap
              (fun w => if w.1 = k then some w.2 else none)))))).filter
      (fun c => 1 < c.2.length))

/-- Number of (mod, file) write events hitting destination `q` in one
deploy of `enabled` — the multiplicity the deploy loop visits `q` with. -/
def qWriteCount (root : ModsRoot) (enabled : List String) (q : Segs) : Nat :=
  (concatMap (modAssetFiles root) enabled).countP (fun f => decide (f.1 = q))

/-! ## `launcher/core/active_pack.py` — build of `mods/_active` -/

/-- A directory exists at `q` inside a mod folder: some file lies
strictly below `q` (`src.is_dir()` on the flat model). -/
def existsDirIn (d : ModDir) (q : Segs) : Bool :=
  d.files.any (fun f => q.isPrefixOf f.1 && decide (q ≠ f.1))

/-- A file exists at exactly `q` inside the mod folder. -/
def existsFileIn (d : ModDir) (q : Segs) : Bool :=
  (getA d.files q).isSome

/-- All files strictly below `q`, with their full mod-relative paths
(`src.rglob("*")` keeping only files). -/
def filesUnder (d : ModDir) (q : Segs) : List (Segs × Nat) :=
  d.files.filter (fun f => q.isPrefixOf f.1 && decide (q ≠ f.1))

/-- The enabled-entry guard of `build_active`: after
`str(rel).replace("\\", "/").strip()`, skip empties, comment lines, and
anything referencing the reserved `_active` overlay name. -/
def buildEntrySkipped (raw : String) : Bool :=
  let rel := stripWS (normSlashes raw)
  rel = "" || strStartsWith rel "#" || rel = "_active" || strStartsWith rel "_active/"

/-- The normalized enabled entry the build then works with. -/
def normStripEnabled (raw : String) : String :=
  stripWS (normSlashes raw)

/-- The `rel` a manifest `copy` entry denotes: `str(entry).strip()`,
backslash normalization, and the trailing-slash marker dropped. -/
def configEntryRel (item : String) : String :=
  dropTrailingSlash (normSlashes (stripWS item))

/-- The traversal guard of `_build_config_mod` on the computed `rel`. -/
def travRejected (relStr : String) : Bool :=
  strStartsWith relStr "../" || strStartsWith relStr "..\\" ||
  strContainsSub relStr "/../" || strContainsSub relStr "\\..\\"

/-- A manifest `copy` entry `_build_config_mod` skips before copying:
an empty entry, or one caught by the traversal guard.  (A listed entry
missing on disk is also skipped, handled separately below.) -/
def configEntrySkipped (item : String) : Bool :=
  stripWS item = "" || travRejected (configEntryRel item)

/-- The overlay files one `copy` entry contributes when building a
config mod under overlay prefix `reln`: `_copy_item` copies a directory
recursively, a single file directly, and nothing when the source entry
does not exist. -/
def configEntryWrites (reln : Segs) (d : ModDir) (item : String) : List (Segs × Nat) :=
  if configEntrySkipped item then []
  else if existsDirIn d (splitSlash (configEntryRel item)) then
    (filesUnder d (splitSlash (configEntryRel item))).map (fun f => (reln ++ f.1, f.2))
  else
    match getA d.files (splitSlash (configEntryRel item)) with
    | some c => [(reln ++ splitSlash (configEntryRel item), c)]
    | none => []

/-- `shutil.copytree(src_mod, dst_mod)`: every mod file lands at the
same mod-relative path under the overlay prefix. -/
def wholeCopy (reln : Segs) (d : ModDir) : List (Segs × Nat) :=
  d.files.map (fun f => (reln ++ f.1, f.2))

/-- `_build_config_mod`: whole-folder copy without a readable manifest or
a usable non-empty `copy` list, else `manifest.json` plus each entry. -/
def buildConfigModWrites (reln : Segs) (d : ModDir) : List (Segs × Nat) :=
  match d.manifest with
  | none => wholeCopy reln d
  | some mf =>
      match mf.copy with
      | none => wholeCopy reln d
      | some items =>
          if items.isEmpty then wholeCopy reln d
          else
            (reln ++ ["manifest.json"],
              (getA d.files ["manifest.json"]).getD 0)
              :: concatMap (configEntryWrites reln d) items

/-- The mod type `build_active` dispatches on:
`str(data.get("type") or "folder").lower().strip()`, `"folder"` when the
manifest is missing or unreadable. -/
def modTypeOf (d : ModDir) : String :=
  match d.manifest with
  | none => "folder"
  | some mf =>
      let t0 := mf.mtype.getD ""
      let t1 := if t0 = "" then "folder" else t0
      stripWS (lowerStr t1)

/-- The overlay files one enabled entry contributes in `build_active`:
skip guarded or vanished entries, then dispatch on the declared type
(`config` uses the manifest `copy` machinery, everything else is a
verbatim whole-folder copy), all under the entry's own relative path. -/
def buildModWrites (root : ModsRoot) (raw : String) : List (Segs × Nat) :=
  if buildEntrySkipped raw then []
  else
    match getA root (splitSlash (normStripEnabled raw)) with
    | none => []
    | some d =>
        if modTypeOf d = "config" then
          buildConfigModWrites (splitSlash (normStripEnabled raw)) d
        else wholeCopy (splitSlash (normStripEnabled raw)) d

/-- All overlay writes of one build call, in program order. -/
def allBuildWrites (root : ModsRoot) (enabled : List String) : List (Segs × Nat) :=
  concatMap (buildModWrites root) enabled

/-- `build_active` as a transformer of the on-disk overlay: the overlay
root is wiped (`shutil.rmtree`) and rebuilt from scratch, so the
previous overlay `prev` does not flow into the result; later writes
overwrite earlier ones at the same path. -/
def buildActiveOverlay (prev : List (Segs × Nat)) (root : ModsRoot)
    (enabled : List String) : List (Segs × Nat) :=
  (allBuildWrites root enabled).foldl (fun acc w => setA acc w.1 w.2) []

/-! ## `launcher/core/deploy.py` — overlay-domain conflict detector -/

/-- `_list_manifest_copy_paths`: the manifest's string `copy` entries,
backslash-normalized, leading slashes stripped, empties dropped. -/
def listManifestCopyPaths (d : ModDir) : List String :=
  match d.manifest with
  | none => []
  | some mf =>
      (mf.copy.getD []).filterMap (fun item =>
        let n := lstripSlashes (normSlashes item)
        if n = "" then none else some n)

/-- The writer-recording loop of `detect_enabled_path_conflicts`:
a directory entry contributes every file below it under its
*mod-relative* path; any other entry contributes the single key
`rel_norm / entry`. -/
def pathWriterPairs (root : ModsRoot) (enabled : List String) : List (Segs × String) :=
  concatMap
    (fun rel =>
      match getA root (splitSlash (relNorm rel)) with
      | none => []
      | some d =>
          if (listManifestCopyPaths d).isEmpty then []
          else
            concatMap
              (fun entry =>
                if existsDirIn d (splitSlash entry) then
                  (filesUnder d (splitSlash entry)).map (fun f => (f.1, relNorm rel))
                else [(splitSlash (relNorm rel) ++ splitSlash entry, relNorm rel)])
              (listManifestCopyPaths d))
    enabled

/-- `detect_enabled_path_conflicts`: keys with at least two distinct
contributing mods, contributor lists sorted, conflicts sorted by path. -/
def detectEnabledPathConflicts (root : ModsRoot) (enabled : List String) :
    List (Segs × List String) :=
  let pairs := pathWriterPairs root enabled
  let keys := firstDedup (pairs.map (·.1))
  insSortBy (fun a b => strLeB (joinSegs a.1) (joinSegs b.1))
    ((keys.map (fun k =>
        (k, sortStrings (firstDedup (pairs.filterMap
              (fun w => if w.1 = k then some w.2 else none)))))).filter
      (fun c => 1 < c.2.length))

/-- The detector's contributor set for one destination key (the distinct
mods its `writers` map records for that key). -/
def detectorContributors (root : ModsRoot) (enabled : List String) (p : Segs) :
    List String :=
  firstDedup (((pathWriterPairs root enabled).filter (fun w => decide (w.1 = p))).map (·.2))

/-- Whether the detector reports a conflict at `p`. -/
def conflictReportedAt (root : ModsRoot) (enabled : List String) (p : Segs) : Bool :=
  (detectEnabledPathConflicts root enabled).any (fun c => decide (c.1 = p))

/-- The set of enabled mods whose build step writes overlay path `p`
(mods identified, as in the detector, by their normalized rel path). -/
def buildWriters (root : ModsRoot) (enabled : List String) (p : Segs) : List String :=
  (enabled.filter (fun rel => (buildModWrites root rel).any (fun w => decide (w.1 = p)))).map relNorm

/-! ## `launcher/core/deploy.py` — `_load_asset_receipt` -/

/-- JSON values, as far as the receipt loader inspects them. -/
inductive Json where
  | null : Json
  | boolV : Bool → Json
  | numV : Int → Json
  | strV : String → Json
  | arrV : List Json → Json
  | objV : List (String × Json) → Json

/-- What reading `deploy/receipt.json` can yield before the loader's own
handling: no file, text that is not JSON (`json.loads` raises), empty
text (`_read_json` returns `{}`), or a parsed JSON value. -/
inductive ReceiptFile where
  | missing : ReceiptFile
  | malformed : ReceiptFile
  | emptyText : ReceiptFile
  | parsed : Json → ReceiptFile

/-- The body of `_load_asset_receipt`'s `try` block on a parsed value:
non-dict data is replaced by the empty ledger; `setdefault("files", {})`;
a non-dict `files` field is replaced by `{}`. -/
def normalizeLoadedReceipt (j : Json) : Json :=
  match j with
  | .objV kvs =>
      let kvs1 : List (String × Json) :=
        match getA kvs "files" with
        | some _ => kvs
        | none => kvs ++ [("files", Json.objV [])]
      match getA kvs1 "files" with
      | some (.objV _) => .objV kvs1
      | _ => .objV (setA kvs1 "files" (Json.objV []))
  | _ => .objV [("files", Json.objV [])]

/-- `_load_asset_receipt`: a missing file and a raising parse both yield
the empty ledger; otherwise the parsed value is normalized. -/
def loadAssetReceipt : ReceiptFile → Json
  | .missing => .objV [("files", Json.objV [])]
  | .malformed => .objV [("files", Json.objV [])]
  | .emptyText => normalizeLoadedReceipt (.objV [])
  | .parsed j => normalizeLoadedReceipt j

/-- The `files` field of a loaded receipt (what restore iterates). -/
def filesOfJson : Json → Option Json
  | .objV kvs => getA kvs "files"
  | _ => none

/-- The degenerate receipt inputs claim C8 enumerates: missing file,
malformed JSON, empty text, a non-object document, or an object whose
`files` field is not an object. -/
def badReceiptB : ReceiptFile → Bool
  | .missing => true
  | .malformed => true
  | .emptyText => true
  | .parsed j =>
      match j with
      | .objV kvs =>
          match getA kvs "files" with
          | some (.objV _) => false
          | some _ => true
          | none => false
      | _ => true

/-! ## `launcher/core/mods.py` — mod scan -/

/-- `CATEGORY_FOLDERS`. -/
def CATEGORY_FOLDERS : List String :=
  ["misc", "skins", "configs", "assets", "folders"]

/-- `NOT_A_MOD_FOLDER_NAMES`. -/
def NOT_A_MOD_FOLDER_NAMES : List String :=
  ["texture", "textures", "buffer", "buffers", "shader", "shaders",
   "output", "outputs", "cache", "caches", "override", "overrides",
   "resources", "resource", "__pycache__"]

/-- `_ALLOWED_ASSET_ROOTS` (mods.py variant, bare folder names). -/
def ASSET_ROOT_NAMES : List String :=
  ["Endfield_Data", "resources", "game_files", "translations", "plugins"]

/-- The deny-list of `_iter_real_mod_folders`. -/
def DENY_NAMES : List String :=
  ["_active", "__pycache__", ".git"]

/-- A flat scan tree: files keyed by mods-root-relative paths. -/
abbrev ScanFs := List (Segs × Nat)

/-- `p.exists()` for a root-relative path: the root itself, a file at
exactly `p`, or a directory (some file at or below `p`). -/
def existsPathB (fs : ScanFs) (p : Segs) : Bool :=
  decide (p = []) || fs.any (fun f => p.isPrefixOf f.1)

/-- `_has_any_suffix`: some file strictly below `d` whose lowercased name
ends in one of the suffixes. -/
def hasAnySuffixB (fs : ScanFs) (d : Segs) (suffixes : List String) : Bool :=
  fs.any (fun f =>
    d.isPrefixOf f.1 && decide (d ≠ f.1) &&
      suffixes.any (fun sfx => sfx.toList.isSuffixOf (lowerStr (f.1.getLastD "")).toList))

/-- `_looks_like_migoto_mod_folder` (mods.py): `Texture`/`texture`/
`Buffer`/`buffer` child, a `d3dx.ini`, or any `.dds`/`.buf` below. -/
def looksLikeMigotoModFolder (fs : ScanFs) (d : Segs) : Bool :=
  existsPathB fs (d ++ ["Texture"]) || existsPathB fs (d ++ ["texture"]) ||
  existsPathB fs (d ++ ["Buffer"]) || existsPathB fs (d ++ ["buffer"]) ||
  existsPathB fs (d ++ ["d3dx.ini"]) || hasAnySuffixB fs d [".dds", ".buf"]

/-- `_looks_like_asset_mod_folder`. -/
def looksLikeAssetModFolder (fs : ScanFs) (d : Segs) : Bool :=
  ASSET_ROOT_NAMES.any (fun r => existsPathB fs (d ++ [r]))

/-- `_looks_like_config_mod_folder`. -/
def looksLikeConfigModFolder (fs : ScanFs) (d : Segs) : Bool :=
  hasAnySuffixB fs d [".ini", ".cfg", ".txt", ".json"]

/-- `_folder_has_any_file`: some real file below `d`, ignoring
`desktop.ini`. -/
def folderHasAnyFileB (fs : ScanFs) (d : Segs) : Bool :=
  fs.any (fun f =>
    d.isPrefixOf f.1 && decide (d ≠ f.1) &&
      decide (lowerStr (f.1.getLastD "") ≠ "desktop.ini"))

/-- `_is_container_folder`: the root itself or a first-level folder. -/
def isContainerFolder (d : Segs) : Bool :=
  decide (d.length ≤ 1)

/-- `_is_subfolder_that_should_not_be_listed`: the structural-name
denylist, the first-level category folders, and the parent-migoto
`texture`/`buffer` check, in source order. -/
def isSubfolderThatShouldNotBeListed (fs : ScanFs) (d : Segs) : Bool :=
  let name := stripWS (lowerStr (d.getLastD ""))
  if NOT_A_MOD_FOLDER_NAMES.contains name then true
  else if decide (d.length = 1) && CATEGORY_FOLDERS.contains (lowerStr (d.headD "")) then true
  else if (decide (d.dropLast = []) || existsPathB fs d.dropLast) &&
      looksLikeMigotoModFolder fs d.dropLast &&
      (name == "texture" || name == "buffer") then true
  else false

/-- The nonempty proper prefixes of a file path: the directories
`rglob("*")` visits above that file. -/
def strictPrefixes : Segs → List Segs
  | [] => []
  | [_] => []
  | s :: t :: rest => [s] :: (strictPrefixes (t :: rest)).map (fun p => s :: p)

/-- Every directory the scan walk visits (a directory exists iff some
file lies strictly below it; empty directories are dropped later by the
`_folder_has_any_file` filter anyway). -/
def allDirsB (fs : ScanFs) : List Segs :=
  firstDedup (concatMap (fun f => strictPrefixes f.1) fs)

/-- The per-directory filters of `_iter_real_mod_folders`' first loop:
deny-listed names, anything nested inside `_active`, container folders,
structural subfolders, and file-less folders are dropped. -/
def scanCandFilter (fs : ScanFs) (d : Segs) : Bool :=
  !(DENY_NAMES.contains (d.getLastD "")) &&
  !(d.dropLast.contains "_active") &&
  !(isContainerFolder d) &&
  !(isSubfolderThatShouldNotBeListed fs d) &&
  folderHasAnyFileB fs d

/-- `sorted(set(candidates), key=lambda p: (len(p.parts), str(p).lower()))`. -/
def sortCands (l : List Segs) : List Segs :=
  insSortBy
    (fun a b =>
      decide (a.length < b.length) ||
        (decide (a.length = b.length) &&
          strLeB (lowerStr (joinSegs a)) (lowerStr (joinSegs b))))
    (firstDedup l)

/-- `d` might only be a container of deeper candidates. -/
def hasChildCand (cands : List Segs) (d : Segs) : Bool :=
  cands.any (fun c => decide (c ≠ d) && d.isPrefixOf c)

/-- The type-test disjunction of the final loop. -/
def looksLikeModB (fs : ScanFs) (d : Segs) : Bool :=
  looksLikeMigotoModFolder fs d || looksLikeAssetModFolder fs d ||
    looksLikeConfigModFolder fs d

/-- `_iter_real_mod_folders`: filtered candidates, sorted and
deduplicated, then pruned to directories that either look like a mod or
have no deeper candidate below them. -/
def iterRealModFolders (fs : ScanFs) : List Segs :=
  (sortCands ((allDirsB fs).filter (scanCandFilter fs))).filter
    (fun d =>
      looksLikeModB fs d ||
        !(hasChildCand (sortCands ((allDirsB fs).filter (scanCandFilter fs))) d))

/-! ## Concrete instances used by counterexamples and witnesses -/

/-- The fresh pre-deploy state: empty game tree, backup store, ledger. -/
def exSt0 : AState := ⟨[], [], []⟩

/-- One manifest-less mod shipping a single allow-listed asset file. -/
def exC1root : ModsRoot := [(["m"], ⟨none, [(["resources", "a.txt"], 7)]⟩)]

/-- Two manifest-less mods shipping different contents for the same
allow-listed destination. -/
def exC2root : ModsRoot :=
  [(["m1"], ⟨none, [(["resources", "f"], 1)]⟩),
   (["m2"], ⟨none, [(["resources", "f"], 2)]⟩)]

/-- A game tree holding original content 9 at the shared destination. -/
def exC2stA : AState := ⟨[(["resources", "f"], 9)], [], []⟩

/-- A mod tree whose only mod is a `TEXTURE`-named folder holding a
plain text file, under a category folder with no migoto markers. -/
def exC4fs : ScanFs := [(["skins", "TEXTURE", "readme.txt"], 0)]

/-- A config manifest whose `copy` list holds one directory entry. -/
def exC5manifest : Manifest := ⟨some "config", some ["data/"]⟩

/-- Two config mods with identical mod-relative `copy` layouts. -/
def exC5root : ModsRoot :=
  [(["configs", "A"], ⟨some exC5manifest, [(["manifest.json"], 10), (["data", "x.ini"], 1)]⟩),
   (["configs", "B"], ⟨some exC5manifest, [(["manifest.json"], 20), (["data", "x.ini"], 2)]⟩)]

/-- The enabled list for the two config mods. -/
def exC5enabled : List String := ["configs/A", "configs/B"]

/-- A one-mod root for the build witnesses. -/
def exC6root : ModsRoot := [(["m"], ⟨none, [(["a.txt"], 5)]⟩)]

/-- A mod carrying only a file outside every allow-listed asset root. -/
def exC7root : ModsRoot := [(["m"], ⟨none, [(["notes.txt"], 3)]⟩)]

/-! ## Ledger invariants for the deploy/restore protocol -/

/-- The ledger has captured destination `q` with backed-up content `c`:
some entry for `q` exists, every entry for `q` records the destination's
own backup key, and the backup store holds `c` at `q`. -/
def RecordedBackup (st : AState) (q : Segs) (c : Nat) : Prop :=
  (∃ e, (q, e) ∈ st.filesMap)
  ∧ (∀ e, (q, e) ∈ st.filesMap → e.backup = some q)
  ∧ getA st.backupStore q = some c

/-- An original `x` sits at `q` and no deploy has touched `q` yet, or
`q` has been touched and its original is safely captured. -/
def PreservedOriginal (st : AState) (q : Segs) (x : Nat) : Prop :=
  (getA st.game q = some x ∧ getA st.filesMap q = none ∧ getA st.backupStore q = none)
  ∨ RecordedBackup st q x

/-- Nothing exists at `q` and no deploy has touched it. -/
def FreshQ (st : AState) (q : Segs) : Prop :=
  getA st.game q = none ∧ getA st.filesMap q = none ∧ getA st.backupStore q = none

/-- `q` was created by a mod: its entries record no backup, the store
holds nothing for it, and the game tree binds it at most once. -/
def ModCreatedQ (st : AState) (q : Segs) : Prop :=
  (∃ e, (q, e) ∈ st.filesMap)
  ∧ (∀ e, (q, e) ∈ st.filesMap → e.backup = none)
  ∧ getA st.backupStore q = none
  ∧ st.game.countP (fun pe => decide (pe.1 = q)) ≤ 1

/-! ## General lemmas about the dict and list helpers -/

theorem getA_setA_self {κ α : Type} [DecidableEq κ] (l : List (κ × α)) (k : κ) (v : α) :
    getA (setA l k v) k = some v := by
  induction l with
  | nil => simp [getA, setA]
  | cons hd tl ih =>
      obtain ⟨k', v'⟩ := hd
      by_cases h : k' = k
      · simp [getA, setA, h]
      · simp [getA, setA, h, ih]

theorem getA_setA_ne {κ α : Type} [DecidableEq κ] (l : List (κ × α)) (k k' : κ) (v : α)
    (h : k' ≠ k) : getA (setA l k v) k' = getA l k' := by
  induction l with
  | nil => simp [getA, setA, Ne.symm h]
  | cons hd tl ih =>
      obtain ⟨k'', v''⟩ := hd
      by_cases h2 : k'' = k
      · subst h2
        simp [getA, setA, Ne.symm h]
      · simp [getA, setA, h2, ih]

theorem setA_mem {κ α : Type} [DecidableEq κ] {l : List (κ × α)} {k : κ} {v : α}
    {pe : κ × α} (h : pe ∈ setA l k v) : pe ∈ l ∨ pe = (k, v) := by
  induction l with
  | nil => simpa [setA] using h
  | cons hd tl ih =>
      obtain ⟨k', v'⟩ := hd
      by_cases h2 : k' = k
      · simp only [setA, if_pos h2] at h
        rcases List.mem_cons.mp h with h3 | h3
        · exact Or.inr h3
        · exact Or.inl (List.mem_cons_of_mem _ h3)
      · simp only [setA, if_neg h2] at h
        rcases List.mem_cons.mp h with h3 | h3
        · exact Or.inl (h3 ▸ List.mem_cons_self _ _)
        · rcases ih h3 with h4 | h4
          · exact Or.inl (List.mem_cons_of_mem _ h4)
          · exact Or.inr h4

theorem setA_mem_self {κ α : Type} [DecidableEq κ] (l : List (κ × α)) (k : κ) (v : α) :
    (k, v) ∈ setA l k v := by
  induction l with
  | nil => simp [setA]
  | cons hd tl ih =>
      obtain ⟨k', v'⟩ := hd
      by_cases h : k' = k
      · simp [setA, h]
      · simp only [setA, if_neg h]
        exact List.mem_cons_of_mem _ ih

theorem setA_mem_of_ne {κ α : Type} [DecidableEq κ] {l : List (κ × α)} {k : κ} {v : α}
    {pe : κ × α} (h : pe ∈ l) (hne : pe.1 ≠ k) : pe ∈ setA l k v := by
  induction l with
  | nil => simp at h
  | cons hd tl ih =>
      obtain ⟨k', v'⟩ := hd
      rcases List.mem_cons.mp h with h2 | h2
      · by_cases h3 : k' = k
        · exact absurd (h2 ▸ h3) hne
        · simp only [setA, if_neg h3]
          exact h2 ▸ List.mem_cons_self _ _
      · by_cases h3 : k' = k
        · simp only [setA, if_pos h3]
          exact List.mem_cons_of_mem _ h2
        · simp only [setA, if_neg h3]
          exact List.mem_cons_of_mem _ (ih h2)

theorem getA_eq_none_iff {κ α : Type} [DecidableEq κ] (l : List (κ × α)) (k : κ) :
    getA l k = none ↔ ∀ pe ∈ l, pe.1 ≠ k := by
  induction l with
  | nil => simp [getA]
  | cons hd tl ih =>
      obtain ⟨k', v'⟩ := hd
      by_cases h : k' = k
      · simp [getA, h]
      · simp [getA, h, ih]

theorem getA_mem {κ α : Type} [DecidableEq κ] {l : List (κ × α)} {k : κ} {v : α}
    (h : getA l k = some v) : (k, v) ∈ l := by
  induction l with
  | nil => simp [getA] at h
  | cons hd tl ih =>
      obtain ⟨k', v'⟩ := hd
      by_cases h2 : k' = k
      · simp only [getA, if_pos h2] at h
        subst h2
        obtain rfl := Option.some.inj h
        exact List.mem_cons_self _ _
      · simp only [getA, if_neg h2] at h
        exact List.mem_cons_of_mem _ (ih h)

theorem getA_isSome_of_mem {κ α : Type} [DecidableEq κ] {l : List (κ × α)} {k : κ} {v : α}
    (h : (k, v) ∈ l) : ∃ w, getA l k = some w := by
  induction l with
  | nil => simp at h
  | cons hd tl ih =>
      obtain ⟨k', v'⟩ := hd
      by_cases h2 : k' = k
      · exact ⟨v', by simp [getA, h2]⟩
      · rcases List.mem_cons.mp h with h3 | h3
        · exact absurd (congrArg Prod.fst h3).symm h2
        · obtain ⟨w, hw⟩ := ih h3
          exact ⟨w, by simp [getA, h2, hw]⟩

theorem concatMap_mem {α β : Type} (f : α → List β) (l : List α) (b : β) :
    b ∈ concatMap f l ↔ ∃ a, a ∈ l ∧ b ∈ f a := by
  induction l with
  | nil => simp [concatMap]
  | cons hd tl ih =>
      simp only [concatMap, List.mem_append, ih, List.mem_cons]
      constructor
      · rintro (h | ⟨a, ha, hb⟩)
        · exact ⟨hd, Or.inl rfl, h⟩
        · exact ⟨a, Or.inr ha, hb⟩
      · rintro ⟨a, (rfl | ha), hb⟩
        · exact Or.inl hb
        · exact Or.inr ⟨a, ha, hb⟩

theorem firstDedupAux_sub {α : Type} [DecidableEq α] {l seen : List α} {x : α}
    (h : x ∈ firstDedupAux l seen) : x ∈ l := by
  induction l generalizing seen with
  | nil => simpa [firstDedupAux] using h
  | cons hd tl ih =>
      by_cases h2 : hd ∈ seen
      · simp only [firstDedupAux, if_pos h2] at h
        exact List.mem_cons_of_mem _ (ih h)
      · simp only [firstDedupAux, if_neg h2] at h
        rcases List.mem_cons.mp h with h3 | h3
        · exact h3 ▸ List.mem_cons_self _ _
        · exact List.mem_cons_of_mem _ (ih h3)

theorem firstDedup_sub {α : Type} [DecidableEq α] {l : List α} {x : α}
    (h : x ∈ firstDedup l) : x ∈ l :=
  firstDedupAux_sub h

theorem insertBy_mem {α : Type} (le : α → α → Bool) (x y : α) (l : List α) :
    y ∈ insertBy le x l ↔ y = x ∨ y ∈ l := by
  induction l with
  | nil => simp [insertBy]
  | cons hd tl ih =>
      by_cases h : le x hd
      · simp [insertBy, h]
      · simp only [insertBy, if_neg h, List.mem_cons, ih]
        tauto

theorem insSortBy_mem {α : Type} (le : α → α → Bool) (x : α) (l : List α) :
    x ∈ insSortBy le l ↔ x ∈ l := by
  induction l with
  | nil => simp [insSortBy]
  | cons hd tl ih =>
      simp [insSortBy, insertBy_mem, ih]

/-! ## Claim C9 — `set_enabled` toggle invariant -/

/-- Claim C9: when `enabled_mods` is duplicate-free, `set_enabled`
preserves duplicate-freeness, is a no-op on the list when the requested
state already holds, and afterwards `is_enabled` returns exactly the
requested flag, with backslash-to-slash normalization on the compared
path. -/
theorem setEnabled_toggle (cfg : List String) (relPath : String) (b : Bool)
    (hnd : cfg.Nodup) :
    (setEnabled cfg relPath b).Nodup
    ∧ (isEnabled cfg relPath = b → setEnabled cfg relPath b = cfg)
    ∧ isEnabled (setEnabled cfg relPath b) relPath = b := by
  cases b with
  | true =>
      by_cases hm : normSlashes relPath ∈ cfg
      · have hstep : setEnabled cfg relPath true = cfg := by simp [setEnabled, hm]
        have hen : isEnabled cfg relPath = true := by simp [isEnabled, hm]
        exact ⟨by rw [hstep]; exact hnd, fun _ => hstep, by rw [hstep]; exact hen⟩
      · have hstep : setEnabled cfg relPath true = cfg ++ [normSlashes relPath] := by
          simp [setEnabled, hm]
        refine ⟨?_, ?_, ?_⟩
        · rw [hstep]
          simp [List.nodup_append, hnd, hm]
        · intro h
          simp [isEnabled, hm] at h
        · rw [hstep]
          simp [isEnabled]
  | false =>
      by_cases hm : normSlashes relPath ∈ cfg
      · have hstep : setEnabled cfg relPath false = cfg.erase (normSlashes relPath) := by
          simp [setEnabled, hm]
        refine ⟨?_, ?_, ?_⟩
        · rw [hstep]
          exact List.Nodup.erase _ hnd
        · intro h
          simp [isEnabled, hm] at h
        · rw [hstep]
          simp [isEnabled, List.Nodup.mem_erase_iff hnd]
      · have hstep : setEnabled cfg relPath false = cfg := by simp [setEnabled, hm]
        refine ⟨by rw [hstep]; exact hnd, fun _ => hstep, ?_⟩
        rw [hstep]
        simp [isEnabled, hm]

/-- Witness for C9 at a concrete configuration. -/
theorem setEnabled_toggle_witness :
    (["configs/A", "skins/B"] : List String).Nodup
    ∧ ((setEnabled ["configs/A", "skins/B"] "configs\\A" false).Nodup
        ∧ (isEnabled ["configs/A", "skins/B"] "configs\\A" = false →
            setEnabled ["configs/A", "skins/B"] "configs\\A" false = ["configs/A", "skins/B"])
        ∧ isEnabled (setEnabled ["configs/A", "skins/B"] "configs\\A" false) "configs\\A" = false) :=
  ⟨by decide, setEnabled_toggle _ _ _ (by decide)⟩

/-! ## Claim C10 — `load_preset` on a missing preset file -/

/-- Claim C10: `load_preset` first normalizes the requested name
(anything other than A, B, C becomes A); when no preset file exists
under the normalized name it replaces `enabled_mods` with the empty
list, sets `current_preset` to the normalized name, and persists the
configuration. -/
theorem loadPreset_missing (presetFiles : List (String × List String))
    (cfg : AppConfigData) (name : String)
    (hmiss : getA presetFiles (normPresetName name) = none) :
    (upperStr (stripWS name) ∉ (["A", "B", "C"] : List String) →
        normPresetName name = "A")
    ∧ loadPreset presetFiles cfg name =
        ({ cfg with enabled_mods := [], current_preset := normPresetName name }, true) := by
  constructor
  · intro h
    unfold normPresetName
    rw [if_neg]
    intro hc
    rcases hc with hc | hc | hc <;> simp [hc] at h
  · simp [loadPreset, hmiss]

/-- Witness for C10: loading the never-saved preset `"q"` normalizes to
`A` and silently clears the enabled set. -/
theorem loadPreset_missing_witness :
    getA ([] : List (String × List String)) (normPresetName "q") = none
    ∧ ((upperStr (stripWS "q") ∉ (["A", "B", "C"] : List String) →
          normPresetName "q" = "A")
        ∧ loadPreset [] ⟨["x"], none, "B"⟩ "q" =
            ({ enabled_mods := [], game_exe := none,
               current_preset := normPresetName "q" }, true)) :=
  ⟨by decide, loadPreset_missing [] ⟨["x"], none, "B"⟩ "q" (by decide)⟩

/-! ## Claim C8 — ledger-load totality -/

/-- Claim C8: `_load_asset_receipt` is total at its interface — a
missing, empty, or malformed receipt file, a non-object document, or a
non-object `files` field all yield the empty ledger (a `files` field
holding the empty object), and a restore run against an empty `files`
map restores nothing and returns 0.  (In the model every function is
total; the content of the claim is the returned value.) -/
theorem loadAssetReceipt_total (f : ReceiptFile) (hbad : badReceiptB f = true) :
    filesOfJson (loadAssetReceipt f) = some (Json.objV [])
    ∧ ∀ st : AState, st.filesMap = [] → restoreAssetsWithReceipt st = (st, 0) := by
  constructor
  · cases f with
    | missing => rfl
    | malformed => rfl
    | emptyText => rfl
    | parsed j =>
        cases j with
        | null => rfl
        | boolV b => rfl
        | numV n => rfl
        | strV s => rfl
        | arrV xs => rfl
        | objV kvs =>
            show filesOfJson (normalizeLoadedReceipt (Json.objV kvs)) = some (Json.objV [])
            unfold normalizeLoadedReceipt
            cases hg : getA kvs "files" with
            | none => simp [badReceiptB, hg] at hbad
            | some v =>
                cases v with
                | objV kvs2 => simp [badReceiptB, hg] at hbad
                | null => simp [filesOfJson, hg, getA_setA_self]
                | boolV b => simp [filesOfJson, hg, getA_setA_self]
                | numV n => simp [filesOfJson, hg, getA_setA_self]
                | strV s => simp [filesOfJson, hg, getA_setA_self]
                | arrV xs => simp [filesOfJson, hg, getA_setA_self]
  · intro st h
    unfold restoreAssetsWithReceipt
    rw [if_pos h]

/-- Witness for C8 at a malformed receipt and the fresh state. -/
theorem loadAssetReceipt_total_witness :
    badReceiptB ReceiptFile.malformed = true
    ∧ (filesOfJson (loadAssetReceipt ReceiptFile.malformed) = some (Json.objV [])
        ∧ ∀ st : AState, st.filesMap = [] → restoreAssetsWithReceipt st = (st, 0)) :=
  ⟨rfl, loadAssetReceipt_total ReceiptFile.malformed rfl⟩

/-! ## Claim C6 — build idempotence and full rebuild -/

theorem foldl_setA_mem {κ α : Type} [DecidableEq κ] (l : List (κ × α))
    (acc : List (κ × α)) (pe : κ × α)
    (h : pe ∈ l.foldl (fun a w => setA a w.1 w.2) acc) :
    pe ∈ acc ∨ ∃ c, (pe.1, c) ∈ l := by
  induction l generalizing acc with
  | nil => exact Or.inl h
  | cons hd tl ih =>
      rcases ih (setA acc hd.1 hd.2) h with h2 | ⟨c, hc⟩
      · rcases setA_mem h2 with h3 | h3
        · exact Or.inl h3
        · refine Or.inr ⟨hd.2, ?_⟩
          rw [show pe.1 = hd.1 from congrArg Prod.fst h3]
          exact List.mem_cons_self _ _
      · exact Or.inr ⟨c, List.mem_cons_of_mem _ hc⟩

/-- Claim C6: the overlay produced by `build_active` is a pure function
of the mods root and the enabled list — the previously deployed overlay
never leaks into the result (the overlay root is wiped and rebuilt), two
builds with unchanged inputs give identical trees, building twice in a
row changes nothing, and every path in the built overlay was written by
some enabled entry. -/
theorem buildActive_idempotent (prev1 prev2 : List (Segs × Nat)) (root : ModsRoot)
    (enabled : List String) :
    buildActiveOverlay prev1 root enabled = buildActiveOverlay prev2 root enabled
    ∧ buildActiveOverlay (buildActiveOverlay prev1 root enabled) root enabled =
        buildActiveOverlay prev1 root enabled
    ∧ ∀ p c, (p, c) ∈ buildActiveOverlay prev1 root enabled →
        ∃ rel, rel ∈ enabled ∧ ∃ c2, (p, c2) ∈ buildModWrites root rel := by
  refine ⟨rfl, rfl, ?_⟩
  intro p c hmem
  rcases foldl_setA_mem _ _ _ hmem with h | ⟨c2, hc⟩
  · simp at h
  · rcases (concatMap_mem _ _ _).mp hc with ⟨rel, hrel, hw⟩
    exact ⟨rel, hrel, c2, hw⟩

/-- Witness for C6: a concrete overlay path traced back to its mod. -/
theorem buildActive_idempotent_witness :
    ((["m", "a.txt"], 5) ∈ buildActiveOverlay [] exC6root ["m"])
    ∧ ∃ rel, rel ∈ ["m"] ∧ ∃ c2, ((["m", "a.txt"] : Segs), c2) ∈ buildModWrites exC6root rel :=
  ⟨by decide, (buildActive_idempotent [] [(["stale"], 0)] exC6root ["m"]).2.2
      ["m", "a.txt"] 5 (by decide)⟩

/-! ## Claim C7 — allow-list confinement of sub-deployment (c) -/

theorem modAssetFiles_allowed {root : ModsRoot} {rel : String} {f : Segs × Nat}
    (h : f ∈ modAssetFiles root rel) : isAllowedAssetRelpath (joinSegs f.1) = true := by
  unfold modAssetFiles at h
  cases hg : getA root (splitSlash (relNorm rel)) with
  | none => rw [hg] at h; simp at h
  | some d =>
      rw [hg] at h
      exact (List.mem_filter.mp h).2

theorem deployFold_game_preserved {q : Segs}
    (hq : isAllowedAssetRelpath (joinSegs q) = false) (reln : String) :
    ∀ (files : List (Segs × Nat)) (st : AState),
      (∀ f ∈ files, isAllowedAssetRelpath (joinSegs f.1) = true) →
      getA (files.foldl (fun s f => deployAssetFile s reln f) st).game q = getA st.game q := by
  intro files
  induction files with
  | nil => intro st _; rfl
  | cons hd tl ih =>
      intro st hall
      have hne : q ≠ hd.1 := by
        intro he
        rw [he, hall hd (List.mem_cons_self _ _)] at hq
        simp at hq
      have hstep : getA (deployAssetFile st reln hd).game q = getA st.game q := by
        unfold deployAssetFile
        exact getA_setA_ne _ _ _ _ hne
      rw [List.foldl_cons, ih _ (fun f hf => hall f (List.mem_cons_of_mem _ hf)), hstep]

theorem deployAssets_game_preserved {root : ModsRoot} {q : Segs}
    (hq : isAllowedAssetRelpath (joinSegs q) = false) :
    ∀ (enabled : List String) (st : AState),
      getA (deployAssetsWithReceipt root enabled st).game q = getA st.game q := by
  intro enabled
  induction enabled with
  | nil => intro st; rfl
  | cons hd tl ih =>
      intro st
      unfold deployAssetsWithReceipt at ih ⊢
      rw [List.foldl_cons, ih]
      exact deployFold_game_preserved hq _ _ _ (fun f hf => modAssetFiles_allowed hf)

theorem assetWriterPairs_allowed {root : ModsRoot} {enabled : List String}
    {pr : String × String} (h : pr ∈ assetWriterPairs root enabled) :
    isAllowedAssetRelpath pr.1 = true := by
  unfold assetWriterPairs at h
  rcases (concatMap_mem _ _ _).mp h with ⟨rel, _, hpr⟩
  cases hg : getA root (splitSlash (relNorm rel)) with
  | none => rw [hg] at hpr; simp at hpr
  | some d =>
      rw [hg] at hpr
      rcases List.mem_filterMap.mp hpr with ⟨f, _, heq⟩
      by_cases hall : isAllowedAssetRelpath (joinSegs f.1) = true
      · rw [if_pos hall] at heq
        obtain rfl := Option.some.inj heq
        exact hall
      · rw [if_neg hall] at heq
        simp at heq

/-- Claim C7: a file whose mod-relative path fails the fixed asset
allow-list is never copied to the game tree by the asset deploy (the
game tree is unchanged at any destination outside the allow-listed
roots), and the asset-domain conflict detector never includes such a
path in its output. -/
theorem assetDeploy_confined (root : ModsRoot) (enabled : List String) (st : AState)
    (q : Segs) (hq : isAllowedAssetRelpath (joinSegs q) = false) :
    getA (deployAssetsWithReceipt root enabled st).game q = getA st.game q
    ∧ ∀ c ∈ detectEnabledAssetConflicts root enabled,
        isAllowedAssetRelpath c.1 = true ∧ c.1 ≠ joinSegs q := by
  constructor
  · exact deployAssets_game_preserved hq enabled st
  · intro c hc
    unfold detectEnabledAssetConflicts at hc
    rw [insSortBy_mem] at hc
    rcases List.mem_filter.mp hc with ⟨hc2, _⟩
    rcases List.mem_map.mp hc2 with ⟨k, hk, hck⟩
    have hk2 := firstDedup_sub hk
    rcases List.mem_map.mp hk2 with ⟨pr, hpr, hprk⟩
    have hall := assetWriterPairs_allowed hpr
    have hc1 : c.1 = pr.1 := by rw [← hck, hprk]
    refine ⟨hc1 ▸ hall, ?_⟩
    intro he
    rw [he] at hc1
    rw [← hc1] at hall
    rw [hall] at hq
    simp at hq

/-- Witness for C7: a mod file outside the allow-listed roots is left
untouched and never reported. -/
theorem assetDeploy_confined_witness :
    isAllowedAssetRelpath (joinSegs ["notes.txt"]) = false
    ∧ (getA (deployAssetsWithReceipt exC7root ["m"] exSt0).game ["notes.txt"] =
          getA exSt0.game ["notes.txt"]
        ∧ ∀ c ∈ detectEnabledAssetConflicts exC7root ["m"],
            isAllowedAssetRelpath c.1 = true ∧ c.1 ≠ joinSegs ["notes.txt"]) :=
  ⟨by decide, assetDeploy_confined exC7root ["m"] exSt0 ["notes.txt"] (by decide)⟩

/-! ## Claims C1–C5 — counterexamples on the code -/

/-- Counterexample to claim C1 as stated: for a destination that did not
exist before any deploy, the first deploy records `backup = none`, and a
second deploy of the same mod re-captures the mod-written file and
overwrites the ledger's backup record for that path. -/
theorem backupOnce_counterexample :
    getA (deployAssetsWithReceipt exC1root ["m"] exSt0).filesMap ["resources", "a.txt"] =
      some ⟨none, ["m"]⟩
    ∧ getA (deployAssetsWithReceipt exC1root ["m"]
          (deployAssetsWithReceipt exC1root ["m"] exSt0)).filesMap ["resources", "a.txt"] =
        some ⟨some ["resources", "a.txt"], ["m"]⟩ := by
  decide

/-- Counterexample to claim C2 as stated: the destination
`resources/f` does not exist before the deploy, two enabled mods both
write it, and after `deploy ; restore` it still holds the first mod's
content instead of being removed. -/
theorem restoreRoundTrip_counterexample :
    getA exSt0.game ["resources", "f"] = none
    ∧ getA ((restoreAssetsWithReceipt
          (deployAssetsWithReceipt exC2root ["m1", "m2"] exSt0)).1).game ["resources", "f"] =
        some 1 := by
  decide

/-- Counterexample to claim C3 as stated: the enabled entry `"../x"`
resolves outside the mods root yet is not skipped by `build_active`, and
the manifest copy entry `".."` is a parent-directory traversal resolving
outside its mod folder yet is not skipped by `_build_config_mod`. -/
theorem pathEscape_counterexample :
    escapesRel (normStripEnabled "../x") = true
    ∧ buildEntrySkipped "../x" = false
    ∧ escapesRel (configEntryRel "..") = true
    ∧ configEntrySkipped ".." = false := by
  decide

/-- Counterexample to claim C4 as stated: `skins/TEXTURE` is a
file-bearing, config-looking mod folder whose parent does not satisfy
the migoto-marker test, yet the scan does not list it — the
`texture`/`buffer` name exclusion is unconditional, not conditional on
the parent. -/
theorem textureExclusion_counterexample :
    looksLikeMigotoModFolder exC4fs ["skins"] = false
    ∧ looksLikeConfigModFolder exC4fs ["skins", "TEXTURE"] = true
    ∧ folderHasAnyFileB exC4fs ["skins", "TEXTURE"] = true
    ∧ isContainerFolder ["skins", "TEXTURE"] = false
    ∧ (["skins", "TEXTURE"] : Segs) ∉ iterRealModFolders exC4fs := by
  decide

/-- Counterexample to claim C5 as stated: two config mods with the same
mod-relative `copy` layout make the detector report a conflict at the
mod-relative key `data/x.ini` with both mods as contributors, while the
build writes that overlay path with no mod at all (each mod's files land
under its own prefix). -/
theorem conflictBuildAgreement_counterexample :
    (detectorContributors exC5root exC5enabled ["data", "x.ini"]).toFinset ≠
      (buildWriters exC5root exC5enabled ["data", "x.ini"]).toFinset
    ∧ conflictReportedAt exC5root exC5enabled ["data", "x.ini"] = true
    ∧ buildWriters exC5root exC5enabled ["data", "x.ini"] = [] := by
  decide

/-! ## Claim C4 — amended: unconditional structural-name exclusion -/

/-- Amended claim C4: during a scan, a directory whose (lowercased,
stripped) name is on the structural denylist — in particular `texture`
and `buffer` in any casing — is excluded from the discovered mod list
unconditionally, whether or not its parent satisfies the migoto-marker
test. -/
theorem structuralName_excluded (fs : ScanFs) (d : Segs)
    (h : NOT_A_MOD_FOLDER_NAMES.contains (stripWS (lowerStr (d.getLastD ""))) = true) :
    d ∉ iterRealModFolders fs := by
  intro hmem
  unfold iterRealModFolders at hmem
  obtain ⟨hc, _⟩ := List.mem_filter.mp hmem
  unfold sortCands at hc
  rw [insSortBy_mem] at hc
  have hc2 := firstDedup_sub hc
  obtain ⟨_, hpass⟩ := List.mem_filter.mp hc2
  have hsub : isSubfolderThatShouldNotBeListed fs d = true := by
    unfold isSubfolderThatShouldNotBeListed
    simp
    exact Or.inl (by simpa using h)
  simp [scanCandFilter, hsub] at hpass

/-- Witness for the amended C4 at the concrete `skins/TEXTURE` tree. -/
theorem structuralName_excluded_witness :
    NOT_A_MOD_FOLDER_NAMES.contains
        (stripWS (lowerStr ((["skins", "TEXTURE"] : Segs).getLastD ""))) = true
    ∧ (["skins", "TEXTURE"] : Segs) ∉ iterRealModFolders exC4fs :=
  ⟨by decide, structuralName_excluded exC4fs ["skins", "TEXTURE"] (by decide)⟩

/-! ## Claim C3 — amended: traversal rejection modulo the bare `..` entry -/

theorem splitRaw_ne_nil (cs : List Char) : splitRaw cs ≠ [] := by
  cases cs with
  | nil => simp [splitRaw]
  | cons c rest =>
      unfold splitRaw
      by_cases h : c = '/'
      · simp [h]
      · simp only [if_neg h]
        cases hr : splitRaw rest <;> simp

theorem joinRaw_splitRaw (cs : List Char) : joinRaw (splitRaw cs) = cs := by
  induction cs with
  | nil => rfl
  | cons c rest ih =>
      unfold splitRaw
      by_cases h : c = '/'
      · subst h
        rw [if_pos rfl]
        cases hr : splitRaw rest with
        | nil => exact absurd hr (splitRaw_ne_nil rest)
        | cons s ss =>
            rw [hr] at ih
            show joinRaw ([] :: s :: ss) = '/' :: rest
            show [] ++ '/' :: joinRaw (s :: ss) = '/' :: rest
            rw [List.nil_append, ih]
      · rw [if_neg h]
        cases hr : splitRaw rest with
        | nil => exact absurd hr (splitRaw_ne_nil rest)
        | cons s ss =>
            rw [hr] at ih
            cases ss with
            | nil =>
                show joinRaw [c :: s] = c :: rest
                show c :: s = c :: rest
                rw [show s = rest from ih]
            | cons t ts =>
                show joinRaw ((c :: s) :: t :: ts) = c :: rest
                show (c :: s) ++ '/' :: joinRaw (t :: ts) = c :: rest
                rw [List.cons_append,
                  show s ++ '/' :: joinRaw (t :: ts) = rest from ih]

theorem joinRaw_append_cons (A : List (List Char)) (t : List Char)
    (ts : List (List Char)) (hA : A ≠ []) :
    joinRaw (A ++ t :: ts) = joinRaw A ++ '/' :: joinRaw (t :: ts) := by
  induction A with
  | nil => exact absurd rfl hA
  | cons a A' ih =>
      cases A' with
      | nil =>
          show joinRaw (a :: t :: ts) = joinRaw [a] ++ '/' :: joinRaw (t :: ts)
          show a ++ '/' :: joinRaw (t :: ts) = a ++ '/' :: joinRaw (t :: ts)
          rfl
      | cons b B =>
          have h2 := ih (List.cons_ne_nil _ _)
          show joinRaw (a :: ((b :: B) ++ t :: ts)) =
            (a ++ '/' :: joinRaw (b :: B)) ++ '/' :: joinRaw (t :: ts)
          have h3 : joinRaw (a :: ((b :: B) ++ t :: ts)) =
              a ++ '/' :: joinRaw ((b :: B) ++ t :: ts) := rfl
          rw [h3, h2, List.append_assoc]
          rfl

theorem isPrefixOf_append_self {α : Type} [BEq α] [LawfulBEq α] (p t : List α) :
    p.isPrefixOf (p ++ t) = true := by
  induction p with
  | nil => simp [List.isPrefixOf]
  | cons c cs ih => simp [List.isPrefixOf, ih]

theorem chInfixOf_append (pat l1 l2 : List Char) :
    chInfixOf pat (l1 ++ (pat ++ l2)) = true := by
  induction l1 with
  | nil =>
      rw [List.nil_append]
      cases pat with
      | nil => cases l2 <;> simp [chInfixOf, List.isPrefixOf]
      | cons c cs =>
          show chInfixOf (c :: cs) (c :: (cs ++ l2)) = true
          simp [chInfixOf, List.isPrefixOf, isPrefixOf_append_self]
  | cons c l1' ih =>
      show chInfixOf pat (c :: (l1' ++ (pat ++ l2))) = true
      simp [chInfixOf, ih]

theorem escScanCh_decomp : ∀ (l : List (List Char)) (d : Nat), escScanCh l d = true →
    (∃ A B, l = A ++ ['.', '.'] :: B ∧ B ≠ []) ∨ (d = 0 ∧ l = [['.', '.']]) := by
  intro l
  induction l with
  | nil =>
      intro d h
      simp [escScanCh] at h
  | cons s rest ih =>
      intro d h
      by_cases hs : s = ['.', '.']
      · subst hs
        by_cases hd : d = 0
        · cases rest with
          | nil => exact Or.inr ⟨hd, rfl⟩
          | cons t ts => exact Or.inl ⟨[], t :: ts, rfl, by simp⟩
        · have h2 : escScanCh rest (d - 1) = true := by
            simp [escScanCh, hd] at h
            exact h
          rcases ih (d - 1) h2 with ⟨A, B, hAB, hB⟩ | ⟨_, hr⟩
          · exact Or.inl ⟨['.', '.'] :: A, B, by rw [hAB]; rfl, hB⟩
          · exact Or.inl ⟨[], [['.', '.']], by rw [hr]; rfl, by simp⟩
      · have h2 : escScanCh rest (d + 1) = true := by
          simp [escScanCh, hs] at h
          exact h
        rcases ih (d + 1) h2 with ⟨A, B, hAB, hB⟩ | ⟨hd1, _⟩
        · exact Or.inl ⟨s :: A, B, by rw [hAB]; rfl, hB⟩
        · exact absurd hd1 (Nat.succ_ne_zero d)

theorem filter_split_mid {α : Type} (p : α → Bool) :
    ∀ (l A B : List α) (x : α), l.filter p = A ++ x :: B →
      ∃ a b, l = a ++ x :: b ∧ a.filter p = A ∧ b.filter p = B := by
  intro l
  induction l with
  | nil =>
      intro A B x h
      simp only [List.filter_nil] at h
      exact absurd h.symm (by simp)
  | cons hd tl ih =>
      intro A B x h
      rw [List.filter_cons] at h
      by_cases ph : p hd = true
      · rw [if_pos ph] at h
        cases A with
        | nil =>
            rw [List.nil_append] at h
            obtain ⟨h1, h2⟩ := List.cons.inj h
            exact ⟨[], tl, by rw [h1]; rfl, by simp, h2⟩
        | cons a A' =>
            rw [List.cons_append] at h
            obtain ⟨h1, h2⟩ := List.cons.inj h
            rcases ih A' B x h2 with ⟨a', b', hl, hfa, hfb⟩
            refine ⟨hd :: a', b', by rw [List.cons_append, hl], ?_, hfb⟩
            rw [List.filter_cons, if_pos ph, hfa, h1]
      · rw [if_neg ph] at h
        rcases ih A B x h with ⟨a', b', hl, hfa, hfb⟩
        refine ⟨hd :: a', b', by rw [List.cons_append, hl], ?_, hfb⟩
        rw [List.filter_cons, if_neg ph, hfa]

theorem escape_caught (s : String) (h : escapesRel s = true) :
    effSegsCh s.toList = [['.', '.']] ∨ travRejected s = true := by
  unfold escapesRel at h
  rcases escScanCh_decomp _ 0 h with ⟨A, B, hAB, hB⟩ | ⟨_, hE⟩
  · right
    unfold effSegsCh at hAB
    rcases filter_split_mid _ (splitRaw s.toList) A B ['.', '.'] hAB with
      ⟨A0, B0, hsplit, hfA, hfB⟩
    have hB0 : B0 ≠ [] := by
      intro he
      rw [he] at hfB
      simp only [List.filter_nil] at hfB
      exact hB hfB.symm
    have hs : s.toList = joinRaw (A0 ++ ['.', '.'] :: B0) := by
      rw [← hsplit, joinRaw_splitRaw]
    cases hA0 : A0 with
    | nil =>
        cases hB0c : B0 with
        | nil => exact absurd hB0c hB0
        | cons t ts =>
            have htl : s.toList = '.' :: '.' :: '/' :: joinRaw (t :: ts) := by
              rw [hs, hA0, hB0c]
              rfl
            have hpre : strStartsWith s "../" = true := by
              unfold strStartsWith
              rw [show ("../").toList = ['.', '.', '/'] from rfl, htl]
              simp [List.isPrefixOf]
            unfold travRejected
            rw [hpre]
            simp
    | cons a A0' =>
        cases hB0c : B0 with
        | nil => exact absurd hB0c hB0
        | cons t ts =>
            have hs3 : s.toList =
                joinRaw (a :: A0') ++ (['/', '.', '.', '/'] ++ joinRaw (t :: ts)) := by
              rw [hs, hA0, hB0c,
                joinRaw_append_cons (a :: A0') _ _ (List.cons_ne_nil _ _)]
              rfl
            have hinf : strContainsSub s "/../" = true := by
              unfold strContainsSub
              rw [show ("/../").toList = ['/', '.', '.', '/'] from rfl, hs3]
              exact chInfixOf_append _ _ _
            unfold travRejected
            rw [hinf]
            simp
  · left
    exact hE

/-- Amended claim C3: enabled entries that are or lie under the reserved
overlay name are skipped by `build_active`, and a manifest `copy` entry
whose normalized relative path resolves outside the mod folder is
skipped by `_build_config_mod` unless that path is exactly the single
component `..` (which evades the guard); enabled entries are not checked
for traversal at all. -/
theorem pathEscape_amended (raw item : String) :
    ((normStripEnabled raw = "_active" ∨
        strStartsWith (normStripEnabled raw) "_active/" = true) →
      buildEntrySkipped raw = true)
    ∧ (escapesRel (configEntryRel item) = true →
        splitSlash (configEntryRel item) = [".."] ∨ configEntrySkipped item = true) := by
  constructor
  · intro h
    have h2 : stripWS (normSlashes raw) = "_active" ∨
        strStartsWith (stripWS (normSlashes raw)) "_active/" = true := h
    rcases h2 with h2 | h2
    · simp [buildEntrySkipped, h2]
    · simp [buildEntrySkipped, h2]
  · intro h
    rcases escape_caught _ h with hE | htr
    · left
      unfold splitSlash
      rw [hE]
      decide
    · right
      simp [configEntrySkipped, htr]

/-- Witness for the amended C3: the overlay-name entry is skipped, and
the escaping entry `"../x"` is caught by the traversal guard. -/
theorem pathEscape_amended_witness :
    buildEntrySkipped "_active/foo" = true
    ∧ (splitSlash (configEntryRel "../x") = [".."] ∨ configEntrySkipped "../x" = true) :=
  ⟨(pathEscape_amended "_active/foo" "../x").1 (Or.inr (by decide)),
   (pathEscape_amended "_active/foo" "../x").2 (by decide)⟩

/-! ## Claim C5 — amended: distinct mods write disjoint overlay subtrees -/

theorem isPrefixOf_total {α : Type} [BEq α] [LawfulBEq α] :
    ∀ (p a b : List α), a.isPrefixOf p = true → b.isPrefixOf p = true →
      a.isPrefixOf b = true ∨ b.isPrefixOf a = true := by
  intro p
  induction p with
  | nil =>
      intro a b ha hb
      cases a with
      | nil => exact Or.inl (by simp [List.isPrefixOf])
      | cons x xs => simp [List.isPrefixOf] at ha
  | cons c cs ih =>
      intro a b ha hb
      cases a with
      | nil => exact Or.inl (by simp [List.isPrefixOf])
      | cons x xs =>
          cases b with
          | nil => exact Or.inr (by simp [List.isPrefixOf])
          | cons y ys =>
              simp only [List.isPrefixOf, Bool.and_eq_true, beq_iff_eq] at ha hb
              rcases ih xs ys ha.2 hb.2 with h | h
              · exact Or.inl (by simp [List.isPrefixOf, ha.1, hb.1, h])
              · exact Or.inr (by simp [List.isPrefixOf, ha.1, hb.1, h])

theorem pairwise_cases {α : Type} {R : α → α → Prop} :
    ∀ {l : List α}, l.Pairwise R → ∀ {a b : α}, a ∈ l → b ∈ l →
      a = b ∨ R a b ∨ R b a := by
  intro l
  induction l with
  | nil =>
      intro _ a b ha
      simp at ha
  | cons hd tl ih =>
      intro hp a b ha hb
      rw [List.pairwise_cons] at hp
      rcases List.mem_cons.mp ha with rfl | ha2
      · rcases List.mem_cons.mp hb with rfl | hb2
        · exact Or.inl rfl
        · exact Or.inr (Or.inl (hp.1 _ hb2))
      · rcases List.mem_cons.mp hb with rfl | hb2
        · exact Or.inr (Or.inr (hp.1 _ ha2))
        · exact ih hp.2 ha2 hb2

theorem wholeCopy_key {reln : Segs} {d : ModDir} {w : Segs × Nat}
    (h : w ∈ wholeCopy reln d) : reln.isPrefixOf w.1 = true := by
  rcases List.mem_map.mp h with ⟨f, _, hw⟩
  rw [← hw]
  exact isPrefixOf_append_self _ _

theorem configEntryWrites_key {reln : Segs} {d : ModDir} {item : String} {w : Segs × Nat}
    (h : w ∈ configEntryWrites reln d item) : reln.isPrefixOf w.1 = true := by
  unfold configEntryWrites at h
  by_cases h1 : configEntrySkipped item = true
  · rw [if_pos h1] at h
    simp at h
  · rw [if_neg h1] at h
    by_cases h2 : existsDirIn d (splitSlash (configEntryRel item)) = true
    · rw [if_pos h2] at h
      rcases List.mem_map.mp h with ⟨f, _, hw⟩
      rw [← hw]
      exact isPrefixOf_append_self _ _
    · rw [if_neg h2] at h
      cases hg : getA d.files (splitSlash (configEntryRel item)) with
      | none =>
          rw [hg] at h
          simp at h
      | some c =>
          rw [hg] at h
          rw [List.mem_singleton] at h
          rw [h]
          exact isPrefixOf_append_self _ _

theorem buildConfigModWrites_key {reln : Segs} {d : ModDir} {w : Segs × Nat}
    (h : w ∈ buildConfigModWrites reln d) : reln.isPrefixOf w.1 = true := by
  cases hm : d.manifest with
  | none =>
      simp only [buildConfigModWrites, hm] at h
      exact wholeCopy_key h
  | some mf =>
      cases hc : mf.copy with
      | none =>
          simp only [buildConfigModWrites, hm, hc] at h
          exact wholeCopy_key h
      | some items =>
          by_cases hi : items.isEmpty = true
          · simp only [buildConfigModWrites, hm, hc, hi, if_true] at h
            exact wholeCopy_key h
          · simp only [buildConfigModWrites, hm, hc, hi, if_false] at h
            rcases List.mem_cons.mp h with rfl | h2
            · exact isPrefixOf_append_self _ _
            · rcases (concatMap_mem _ _ _).mp h2 with ⟨item, _, hw⟩
              exact configEntryWrites_key hw

theorem buildModWrites_key {root : ModsRoot} {raw : String} {w : Segs × Nat}
    (h : w ∈ buildModWrites root raw) :
    (∃ d, getA root (splitSlash (normStripEnabled raw)) = some d)
    ∧ (splitSlash (normStripEnabled raw)).isPrefixOf w.1 = true := by
  by_cases hskip : buildEntrySkipped raw = true
  · simp only [buildModWrites, hskip, if_true] at h
    simp at h
  · cases hg : getA root (splitSlash (normStripEnabled raw)) with
    | none =>
        simp only [buildModWrites, hskip, hg, if_false] at h
        simp at h
    | some d =>
        simp only [buildModWrites, hskip, hg, if_false] at h
        refine ⟨⟨d, rfl⟩, ?_⟩
        by_cases ht : modTypeOf d = "config"
        · rw [if_pos ht] at h
          exact buildConfigModWrites_key h
        · rw [if_neg ht] at h
          exact wholeCopy_key h

/-- Amended claim C5: the detector's contributor set does not agree with
the builder's writes (see the counterexample); what does hold of the
build is that each enabled mod writes only under its own rel-path
prefix, so when the mod folders' keys are pairwise prefix-free and the
enabled entries are canonically written, at most one mod writes any
given overlay path — build-side conflicts cannot occur at all, while the
detector can still report contributor sets of size two or more. -/
theorem conflictBuildAgreement_amended (root : ModsRoot) (enabled : List String) (p : Segs)
    (hsep : root.Pairwise
      (fun a b => a.1.isPrefixOf b.1 = false ∧ b.1.isPrefixOf a.1 = false))
    (hcanon : ∀ rel ∈ enabled,
      relNorm rel = joinSegs (splitSlash (normStripEnabled rel))) :
    (buildWriters root enabled p).toFinset.card ≤ 1 := by
  apply Finset.card_le_one.mpr
  intro a ha b hb
  rw [List.mem_toFinset] at ha hb
  unfold buildWriters at ha hb
  rcases List.mem_map.mp ha with ⟨rel1, hrel1, ha2⟩
  rcases List.mem_map.mp hb with ⟨rel2, hrel2, hb2⟩
  obtain ⟨hrel1e, hw1⟩ := List.mem_filter.mp hrel1
  obtain ⟨hrel2e, hw2⟩ := List.mem_filter.mp hrel2
  rw [List.any_eq_true] at hw1 hw2
  rcases hw1 with ⟨w1, hw1m, hw1p⟩
  rcases hw2 with ⟨w2, hw2m, hw2p⟩
  obtain ⟨⟨d1, hg1⟩, hpre1⟩ := buildModWrites_key hw1m
  obtain ⟨⟨d2, hg2⟩, hpre2⟩ := buildModWrites_key hw2m
  rw [show w1.1 = p from of_decide_eq_true hw1p] at hpre1
  rw [show w2.1 = p from of_decide_eq_true hw2p] at hpre2
  have hm1 : (splitSlash (normStripEnabled rel1), d1) ∈ root := getA_mem hg1
  have hm2 : (splitSlash (normStripEnabled rel2), d2) ∈ root := getA_mem hg2
  have hk : splitSlash (normStripEnabled rel1) = splitSlash (normStripEnabled rel2) := by
    rcases pairwise_cases hsep hm1 hm2 with he | hR | hR
    · exact congrArg Prod.fst he
    · rcases isPrefixOf_total p _ _ hpre1 hpre2 with h | h
      · rw [hR.1] at h
        exact Bool.noConfusion h
      · rw [hR.2] at h
        exact Bool.noConfusion h
    · rcases isPrefixOf_total p _ _ hpre1 hpre2 with h | h
      · rw [hR.2] at h
        exact Bool.noConfusion h
      · rw [hR.1] at h
        exact Bool.noConfusion h
  rw [← ha2, ← hb2, hcanon rel1 hrel1e, hcanon rel2 hrel2e, hk]

/-- Witness for the amended C5 at the two concrete config mods. -/
theorem conflictBuildAgreement_amended_witness :
    (exC5root.Pairwise
        (fun a b => a.1.isPrefixOf b.1 = false ∧ b.1.isPrefixOf a.1 = false))
    ∧ (∀ rel ∈ exC5enabled, relNorm rel = joinSegs (splitSlash (normStripEnabled rel)))
    ∧ (buildWriters exC5root exC5enabled
        ["configs", "A", "data", "x.ini"]).toFinset.card ≤ 1 :=
  ⟨by decide, by decide,
   conflictBuildAgreement_amended exC5root exC5enabled _ (by decide) (by decide)⟩

/-! ## Claims C1 and C2 — deploy/restore invariant machinery -/

theorem getA_removeA_ne {κ α : Type} [DecidableEq κ] (l : List (κ × α)) (k k' : κ)
    (h : k' ≠ k) : getA (removeA l k) k' = getA l k' := by
  induction l with
  | nil => rfl
  | cons hd tl ih =>
      obtain ⟨k'', v''⟩ := hd
      by_cases h2 : k'' = k
      · subst h2
        simp [removeA, getA, Ne.symm h]
      · simp [removeA, getA, h2, ih]

theorem countP_setA_ne {κ α : Type} [DecidableEq κ] (l : List (κ × α)) (k q : κ) (v : α)
    (h : k ≠ q) :
    (setA l k v).countP (fun pe => decide (pe.1 = q)) =
      l.countP (fun pe => decide (pe.1 = q)) := by
  induction l with
  | nil => simp [setA, List.countP_cons, h]
  | cons hd tl ih =>
      obtain ⟨k', v'⟩ := hd
      by_cases h2 : k' = k
      · subst h2
        simp [setA, List.countP_cons, h]
      · simp [setA, h2, List.countP_cons, ih]

theorem countP_setA_le_succ {κ α : Type} [DecidableEq κ] (l : List (κ × α)) (k : κ) (v : α)
    (P : κ × α → Bool) :
    (setA l k v).countP P ≤ l.countP P + 1 := by
  induction l with
  | nil =>
      simp only [setA, List.countP_cons, List.countP_nil]
      split <;> omega
  | cons hd tl ih =>
      obtain ⟨k', v'⟩ := hd
      by_cases h2 : k' = k
      · subst h2
        rw [show setA ((k', v') :: tl) k' v = (k', v) :: tl from by simp [setA]]
        simp only [List.countP_cons]
        split <;> omega
      · simp only [setA, if_neg h2, List.countP_cons]
        omega

theorem countP_removeA_le {κ α : Type} [DecidableEq κ] (l : List (κ × α)) (k : κ)
    (P : κ × α → Bool) : (removeA l k).countP P ≤ l.countP P := by
  induction l with
  | nil => simp [removeA]
  | cons hd tl ih =>
      obtain ⟨k', v'⟩ := hd
      by_cases h2 : k' = k
      · simp only [removeA, if_pos h2, List.countP_cons]
        omega
      · simp only [removeA, if_neg h2, List.countP_cons]
        omega

theorem countP_zero_of_getA_none {κ α : Type} [DecidableEq κ] {l : List (κ × α)} {q : κ}
    (h : getA l q = none) : l.countP (fun pe => decide (pe.1 = q)) = 0 := by
  rw [List.countP_eq_zero]
  intro pe hpe
  simp only [decide_eq_true_eq]
  exact (getA_eq_none_iff _ _).mp h pe hpe

theorem getA_removeA_self_of_le_one {κ α : Type} [DecidableEq κ] :
    ∀ (l : List (κ × α)) (q : κ),
      l.countP (fun pe => decide (pe.1 = q)) ≤ 1 → getA (removeA l q) q = none := by
  intro l
  induction l with
  | nil => intro q _; rfl
  | cons hd tl ih =>
      intro q hc
      obtain ⟨k, v⟩ := hd
      by_cases h2 : k = q
      · subst h2
        simp only [removeA, if_pos rfl]
        have hc2 : tl.countP (fun pe => decide (pe.1 = k)) = 0 := by
          rw [List.countP_cons] at hc
          have hone : (if decide ((k, v).1 = k) = true then 1 else 0) = 1 := by
            simp
          omega
        rw [getA_eq_none_iff]
        intro pe hpe hpq
        have hno := List.countP_eq_zero.mp hc2 pe hpe
        simp [hpq] at hno
      · simp only [removeA, if_neg h2, getA, if_neg h2]
        apply ih
        simp only [List.countP_cons] at hc
        omega

theorem backupOriginalOnce_none {game store : List (Segs × Nat)} {q : Segs}
    (h : getA game q = none) : backupOriginalOnce game store q = (none, store) := by
  simp [backupOriginalOnce, h]

theorem backupOriginalOnce_someSome {game store : List (Segs × Nat)} {q : Segs} {cur w : Nat}
    (hg : getA game q = some cur) (hs : getA store q = some w) :
    backupOriginalOnce game store q = (some q, store) := by
  simp [backupOriginalOnce, hg, hs]

theorem backupOriginalOnce_someNone {game store : List (Segs × Nat)} {q : Segs} {cur : Nat}
    (hg : getA game q = some cur) (hs : getA store q = none) :
    backupOriginalOnce game store q = (some q, setA store q cur) := by
  simp [backupOriginalOnce, hg, hs]

theorem backupOriginalOnce_fst {game store : List (Segs × Nat)} {q : Segs} :
    (backupOriginalOnce game store q).1 = none ∨
      (backupOriginalOnce game store q).1 = some q := by
  cases hg : getA game q with
  | none => rw [backupOriginalOnce_none hg]; exact Or.inl rfl
  | some cur =>
      cases hs : getA store q with
      | none => rw [backupOriginalOnce_someNone hg hs]; exact Or.inr rfl
      | some w => rw [backupOriginalOnce_someSome hg hs]; exact Or.inr rfl

theorem backupOriginalOnce_store_ne {game store : List (Segs × Nat)} {k q : Segs}
    (h : q ≠ k) : getA (backupOriginalOnce game store k).2 q = getA store q := by
  cases hg : getA game k with
  | none => rw [backupOriginalOnce_none hg]
  | some cur =>
      cases hs : getA store k with
      | none =>
          rw [backupOriginalOnce_someNone hg hs]
          exact getA_setA_ne _ _ _ _ h
      | some w => rw [backupOriginalOnce_someSome hg hs]

theorem backupOriginalOnce_store_mono {game store : List (Segs × Nat)} {k q : Segs} {c : Nat}
    (hc : getA store q = some c) : getA (backupOriginalOnce game store k).2 q = some c := by
  by_cases hk : k = q
  · subst hk
    cases hg : getA game k with
    | none => rw [backupOriginalOnce_none hg]; exact hc
    | some cur => rw [backupOriginalOnce_someSome hg hc]; exact hc
  · rw [backupOriginalOnce_store_ne (fun he => hk he.symm)]
    exact hc

theorem deployNewEntry_backup_of_recorded {st : AState} {reln : String} {q : Segs}
    (hall : ∀ e, (q, e) ∈ st.filesMap → e.backup = some q)
    (hex : ∃ e, (q, e) ∈ st.filesMap) :
    (deployNewEntry st reln q).backup = some q := by
  unfold deployNewEntry
  rcases @backupOriginalOnce_fst st.game st.backupStore q with hbk | hbk
  · rw [hbk]
    obtain ⟨e, he⟩ := hex
    obtain ⟨w, hw⟩ := getA_isSome_of_mem he
    rw [hw]
    exact hall w (getA_mem hw)
  · rw [hbk]

theorem deployNewEntry_backup_fresh {st : AState} {reln : String} {q : Segs}
    (hfm : getA st.filesMap q = none) (hg : getA st.game q = none) :
    (deployNewEntry st reln q).backup = none := by
  unfold deployNewEntry
  rw [(backupOriginalOnce_none hg : backupOriginalOnce st.game st.backupStore q = _)]
  rw [hfm]
  rfl

theorem recordedBackup_deployFile (st : AState) (reln : String) (f : Segs × Nat)
    {q : Segs} {c : Nat} (h : RecordedBackup st q c) :
    RecordedBackup (deployAssetFile st reln f) q c := by
  obtain ⟨fq, fc⟩ := f
  obtain ⟨⟨e0, he0⟩, hall, hst⟩ := h
  by_cases hf : fq = q
  · subst hf
    refine ⟨⟨deployNewEntry st reln fq, setA_mem_self _ _ _⟩, ?_, ?_⟩
    · intro e he
      rcases setA_mem he with hin | heq
      · exact hall e hin
      · rw [show e = deployNewEntry st reln fq from congrArg Prod.snd heq]
        exact deployNewEntry_backup_of_recorded hall ⟨e0, he0⟩
    · exact backupOriginalOnce_store_mono hst
  · refine ⟨⟨e0, setA_mem_of_ne he0 (fun he => hf he.symm)⟩, ?_, ?_⟩
    · intro e he
      rcases setA_mem he with hin | heq
      · exact hall e hin
      · exact absurd (congrArg Prod.fst heq).symm hf
    · exact backupOriginalOnce_store_mono hst

theorem preservedOriginal_deployFile (st : AState) (reln : String) (f : Segs × Nat)
    {q : Segs} {x : Nat} (h : PreservedOriginal st q x) :
    PreservedOriginal (deployAssetFile st reln f) q x := by
  obtain ⟨fq, fc⟩ := f
  rcases h with ⟨hg, hfm, hbs⟩ | hrec
  · by_cases hf : fq = q
    · subst hf
      right
      refine ⟨⟨deployNewEntry st reln fq, setA_mem_self _ _ _⟩, ?_, ?_⟩
      · intro e he
        rcases setA_mem he with hin | heq
        · exact absurd rfl ((getA_eq_none_iff _ _).mp hfm _ hin)
        · rw [show e = deployNewEntry st reln fq from congrArg Prod.snd heq]
          unfold deployNewEntry
          rw [(backupOriginalOnce_someNone hg hbs :
            backupOriginalOnce st.game st.backupStore fq = _)]
      · show getA (backupOriginalOnce st.game st.backupStore fq).2 fq = some x
        rw [(backupOriginalOnce_someNone hg hbs :
          backupOriginalOnce st.game st.backupStore fq = _)]
        exact getA_setA_self _ _ _
    · left
      refine ⟨?_, ?_, ?_⟩
      · show getA (setA st.game fq fc) q = some x
        rw [getA_setA_ne _ _ _ _ (fun he => hf he.symm)]
        exact hg
      · show getA (setA st.filesMap fq (deployNewEntry st reln fq)) q = none
        rw [getA_setA_ne _ _ _ _ (fun he => hf he.symm)]
        exact hfm
      · show getA (backupOriginalOnce st.game st.backupStore fq).2 q = none
        rw [backupOriginalOnce_store_ne (fun he => hf he.symm)]
        exact hbs
  · exact Or.inr (recordedBackup_deployFile st reln (fq, fc) hrec)

theorem freshQ_deployFile_ne (st : AState) (reln : String) {fq : Segs} {fc : Nat} {q : Segs}
    (hf : fq ≠ q) (h : FreshQ st q) : FreshQ (deployAssetFile st reln (fq, fc)) q := by
  obtain ⟨hg, hfm, hbs⟩ := h
  refine ⟨?_, ?_, ?_⟩
  · show getA (setA st.game fq fc) q = none
    rw [getA_setA_ne _ _ _ _ (fun he => hf he.symm)]
    exact hg
  · show getA (setA st.filesMap fq (deployNewEntry st reln fq)) q = none
    rw [getA_setA_ne _ _ _ _ (fun he => hf he.symm)]
    exact hfm
  · show getA (backupOriginalOnce st.game st.backupStore fq).2 q = none
    rw [backupOriginalOnce_store_ne (fun he => hf he.symm)]
    exact hbs

theorem freshQ_deployFile_hit (st : AState) (reln : String) {q : Segs} {fc : Nat}
    (h : FreshQ st q) : ModCreatedQ (deployAssetFile st reln (q, fc)) q := by
  obtain ⟨hg, hfm, hbs⟩ := h
  refine ⟨⟨deployNewEntry st reln q, setA_mem_self _ _ _⟩, ?_, ?_, ?_⟩
  · intro e he
    rcases setA_mem he with hin | heq
    · exact absurd rfl ((getA_eq_none_iff _ _).mp hfm _ hin)
    · rw [show e = deployNewEntry st reln q from congrArg Prod.snd heq]
      exact deployNewEntry_backup_fresh hfm hg
  · show getA (backupOriginalOnce st.game st.backupStore q).2 q = none
    rw [(backupOriginalOnce_none hg : backupOriginalOnce st.game st.backupStore q = _)]
    exact hbs
  · show (setA st.game q fc).countP (fun pe => decide (pe.1 = q)) ≤ 1
    have h0 := countP_zero_of_getA_none hg
    have := countP_setA_le_succ st.game q fc (fun pe => decide (pe.1 = q))
    omega

theorem modCreatedQ_deployFile_ne (st : AState) (reln : String) {fq : Segs} {fc : Nat}
    {q : Segs} (hf : fq ≠ q) (h : ModCreatedQ st q) :
    ModCreatedQ (deployAssetFile st reln (fq, fc)) q := by
  obtain ⟨⟨e0, he0⟩, hall, hbs, hcnt⟩ := h
  refine ⟨⟨e0, setA_mem_of_ne he0 (fun he => hf he.symm)⟩, ?_, ?_, ?_⟩
  · intro e he
    rcases setA_mem he with hin | heq
    · exact hall e hin
    · exact absurd (congrArg Prod.fst heq).symm hf
  · show getA (backupOriginalOnce st.game st.backupStore fq).2 q = none
    rw [backupOriginalOnce_store_ne (fun he => hf he.symm)]
    exact hbs
  · show (setA st.game fq fc).countP (fun pe => decide (pe.1 = q)) ≤ 1
    rw [countP_setA_ne _ _ _ _ hf]
    exact hcnt

theorem foldl_pres {α β : Type} (P : α → Prop) (f : α → β → α) :
    ∀ (l : List β) (a : α), (∀ a b, P a → P (f a b)) → P a → P (l.foldl f a) := by
  intro l
  induction l with
  | nil => intro a _ h; exact h
  | cons hd tl ih => intro a hstep h; exact ih _ hstep (hstep a hd h)

theorem recordedBackup_deployMod (root : ModsRoot) (rel : String) (st : AState)
    {q : Segs} {c : Nat} (h : RecordedBackup st q c) :
    RecordedBackup (deployAssetMod root st rel) q c :=
  foldl_pres (fun s => RecordedBackup s q c) _ _ _
    (fun a b hp => recordedBackup_deployFile a (relNorm rel) b hp) h

theorem recordedBackup_deployAssets (root : ModsRoot) (enabled : List String) (st : AState)
    {q : Segs} {c : Nat} (h : RecordedBackup st q c) :
    RecordedBackup (deployAssetsWithReceipt root enabled st) q c :=
  foldl_pres (fun s => RecordedBackup s q c) _ _ _
    (fun a b hp => recordedBackup_deployMod root b a hp) h

theorem preservedOriginal_deployMod (root : ModsRoot) (rel : String) (st : AState)
    {q : Segs} {x : Nat} (h : PreservedOriginal st q x) :
    PreservedOriginal (deployAssetMod root st rel) q x :=
  foldl_pres (fun s => PreservedOriginal s q x) _ _ _
    (fun a b hp => preservedOriginal_deployFile a (relNorm rel) b hp) h

theorem preservedOriginal_deployAssets (root : ModsRoot) (enabled : List String)
    (st : AState) {q : Segs} {x : Nat} (h : PreservedOriginal st q x) :
    PreservedOriginal (deployAssetsWithReceipt root enabled st) q x :=
  foldl_pres (fun s => PreservedOriginal s q x) _ _ _
    (fun a b hp => preservedOriginal_deployMod root b a hp) h

theorem deployFiles_fresh_zero (reln : String) {q : Segs} :
    ∀ (files : List (Segs × Nat)) (st : AState),
      files.countP (fun f => decide (f.1 = q)) = 0 → FreshQ st q →
      FreshQ (files.foldl (fun s f => deployAssetFile s reln f) st) q := by
  intro files
  induction files with
  | nil => intro st _ h; exact h
  | cons hd tl ih =>
      intro st hc h
      obtain ⟨fq, fc⟩ := hd
      rw [List.countP_cons] at hc
      have hne : fq ≠ q := by
        intro he
        simp [he] at hc
      have hc0 : tl.countP (fun f => decide (f.1 = q)) = 0 := by omega
      rw [List.foldl_cons]
      exact ih _ hc0 (freshQ_deployFile_ne st reln hne h)

theorem deployFiles_created_zero (reln : String) {q : Segs} :
    ∀ (files : List (Segs × Nat)) (st : AState),
      files.countP (fun f => decide (f.1 = q)) = 0 → ModCreatedQ st q →
      ModCreatedQ (files.foldl (fun s f => deployAssetFile s reln f) st) q := by
  intro files
  induction files with
  | nil => intro st _ h; exact h
  | cons hd tl ih =>
      intro st hc h
      obtain ⟨fq, fc⟩ := hd
      rw [List.countP_cons] at hc
      have hne : fq ≠ q := by
        intro he
        simp [he] at hc
      have hc0 : tl.countP (fun f => decide (f.1 = q)) = 0 := by omega
      rw [List.foldl_cons]
      exact ih _ hc0 (modCreatedQ_deployFile_ne st reln hne h)

theorem deployFiles_fresh_le_one (reln : String) {q : Segs} :
    ∀ (files : List (Segs × Nat)) (st : AState),
      files.countP (fun f => decide (f.1 = q)) ≤ 1 → FreshQ st q →
      FreshQ (files.foldl (fun s f => deployAssetFile s reln f) st) q
      ∨ ModCreatedQ (files.foldl (fun s f => deployAssetFile s reln f) st) q := by
  intro files
  induction files with
  | nil => intro st _ h; exact Or.inl h
  | cons hd tl ih =>
      intro st hc h
      obtain ⟨fq, fc⟩ := hd
      rw [List.countP_cons] at hc
      by_cases hfq : fq = q
      · subst hfq
        have hone : (if decide ((fq, fc).1 = fq) = true then 1 else 0) = 1 := by simp
        have hc0 : tl.countP (fun f => decide (f.1 = fq)) = 0 := by omega
        rw [List.foldl_cons]
        exact Or.inr (deployFiles_created_zero reln tl _ hc0
          (freshQ_deployFile_hit st reln h))
      · have hc1 : tl.countP (fun f => decide (f.1 = q)) ≤ 1 := by omega
        rw [List.foldl_cons]
        exact ih _ hc1 (freshQ_deployFile_ne st reln hfq h)

theorem qWriteCount_cons (root : ModsRoot) (rel : String) (rest : List String) (q : Segs) :
    qWriteCount root (rel :: rest) q =
      (modAssetFiles root rel).countP (fun f => decide (f.1 = q))
        + qWriteCount root rest q := by
  simp [qWriteCount, concatMap, List.countP_append]

theorem deployAssets_fresh_zero (root : ModsRoot) {q : Segs} :
    ∀ (l : List String) (st : AState),
      qWriteCount root l q = 0 → FreshQ st q →
      FreshQ (deployAssetsWithReceipt root l st) q := by
  intro l
  induction l with
  | nil => intro st _ h; exact h
  | cons rel rest ih =>
      intro st hc h
      rw [qWriteCount_cons] at hc
      have h1 : (modAssetFiles root rel).countP (fun f => decide (f.1 = q)) = 0 := by omega
      have h2 : qWriteCount root rest q = 0 := by omega
      show FreshQ (deployAssetsWithReceipt root rest (deployAssetMod root st rel)) q
      exact ih _ h2 (deployFiles_fresh_zero (relNorm rel) _ _ h1 h)

theorem deployAssets_created_zero (root : ModsRoot) {q : Segs} :
    ∀ (l : List String) (st : AState),
      qWriteCount root l q = 0 → ModCreatedQ st q →
      ModCreatedQ (deployAssetsWithReceipt root l st) q := by
  intro l
  induction l with
  | nil => intro st _ h; exact h
  | cons rel rest ih =>
      intro st hc h
      rw [qWriteCount_cons] at hc
      have h1 : (modAssetFiles root rel).countP (fun f => decide (f.1 = q)) = 0 := by omega
      have h2 : qWriteCount root rest q = 0 := by omega
      show ModCreatedQ (deployAssetsWithReceipt root rest (deployAssetMod root st rel)) q
      exact ih _ h2 (deployFiles_created_zero (relNorm rel) _ _ h1 h)

theorem deployAssets_fresh_le_one (root : ModsRoot) {q : Segs} :
    ∀ (l : List String) (st : AState),
      qWriteCount root l q ≤ 1 → FreshQ st q →
      FreshQ (deployAssetsWithReceipt root l st) q
      ∨ ModCreatedQ (deployAssetsWithReceipt root l st) q := by
  intro l
  induction l with
  | nil => intro st _ h; exact Or.inl h
  | cons rel rest ih =>
      intro st hc h
      rw [qWriteCount_cons] at hc
      show FreshQ (deployAssetsWithReceipt root rest (deployAssetMod root st rel)) q
        ∨ ModCreatedQ (deployAssetsWithReceipt root rest (deployAssetMod root st rel)) q
      by_cases hm : (modAssetFiles root rel).countP (fun f => decide (f.1 = q)) = 0
      · have h2 : qWriteCount root rest q ≤ 1 := by omega
        exact ih _ h2 (deployFiles_fresh_zero (relNorm rel) _ _ hm h)
      · have h1 : (modAssetFiles root rel).countP (fun f => decide (f.1 = q)) ≤ 1 := by
          omega
        have h2 : qWriteCount root rest q = 0 := by omega
        rcases deployFiles_fresh_le_one (relNorm rel) _ _ h1 h with hF | hC
        · exact Or.inl (deployAssets_fresh_zero root _ _ h2 hF)
        · exact Or.inr (deployAssets_created_zero root _ _ h2 hC)

theorem restoreEntryStep_game_ne (store : List (Segs × Nat)) (acc : List (Segs × Nat) × Nat)
    (pe : Segs × Entry) {q : Segs} (h : pe.1 ≠ q) :
    getA (restoreEntryStep store acc pe).1 q = getA acc.1 q := by
  cases hb : pe.2.backup with
  | some b =>
      cases hs : getA store b with
      | some c =>
          simp only [restoreEntryStep, hb, hs]
          exact getA_setA_ne _ _ _ _ (fun he => h he.symm)
      | none => simp only [restoreEntryStep, hb, hs]
  | none =>
      cases hg : getA acc.1 pe.1 with
      | some v =>
          simp only [restoreEntryStep, hb, hg]
          exact getA_removeA_ne _ _ _ (fun he => h he.symm)
      | none => simp only [restoreEntryStep, hb, hg]

theorem restoreEntryStep_count_le (store : List (Segs × Nat)) (acc : List (Segs × Nat) × Nat)
    (pe : Segs × Entry) {q : Segs} (h : pe.1 ≠ q) :
    (restoreEntryStep store acc pe).1.countP (fun x => decide (x.1 = q)) ≤
      acc.1.countP (fun x => decide (x.1 = q)) := by
  cases hb : pe.2.backup with
  | some b =>
      cases hs : getA store b with
      | some c =>
          simp only [restoreEntryStep, hb, hs]
          rw [countP_setA_ne _ _ _ _ h]
      | none => simp only [restoreEntryStep, hb, hs]; exact Nat.le_refl _
  | none =>
      cases hg : getA acc.1 pe.1 with
      | some v =>
          simp only [restoreEntryStep, hb, hg]
          exact countP_removeA_le _ _ _
      | none => simp only [restoreEntryStep, hb, hg]; exact Nat.le_refl _

theorem restoreFold_ne (store : List (Segs × Nat)) {q : Segs} :
    ∀ (fm : List (Segs × Entry)) (acc : List (Segs × Nat) × Nat),
      (∀ pe ∈ fm, pe.1 ≠ q) →
      getA ((fm.foldl (restoreEntryStep store) acc).1) q = getA acc.1 q := by
  intro fm
  induction fm with
  | nil => intro acc _; rfl
  | cons hd tl ih =>
      intro acc hall
      rw [List.foldl_cons, ih _ (fun pe hpe => hall pe (List.mem_cons_of_mem _ hpe)),
        restoreEntryStep_game_ne _ _ _ (hall hd (List.mem_cons_self _ _))]

theorem restoreFold_some_pres (store : List (Segs × Nat)) {q : Segs} {x : Nat} :
    ∀ (fm : List (Segs × Entry)) (acc : List (Segs × Nat) × Nat),
      (∀ e, (q, e) ∈ fm → e.backup = some q) → getA store q = some x →
      getA acc.1 q = some x →
      getA ((fm.foldl (restoreEntryStep store) acc).1) q = some x := by
  intro fm
  induction fm with
  | nil => intro acc _ _ h; exact h
  | cons hd tl ih =>
      intro acc hall hsx hacc
      obtain ⟨k, e⟩ := hd
      rw [List.foldl_cons]
      by_cases hk : k = q
      · subst hk
        have hb : e.backup = some k := hall e (List.mem_cons_self _ _)
        have hstep : getA (restoreEntryStep store acc (k, e)).1 k = some x := by
          simp only [restoreEntryStep, hb, hsx]
          exact getA_setA_self _ _ _
        exact ih _ (fun e2 he2 => hall e2 (List.mem_cons_of_mem _ he2)) hsx hstep
      · have hstep : getA (restoreEntryStep store acc (k, e)).1 q = some x := by
          rw [restoreEntryStep_game_ne _ _ _ hk]
          exact hacc
        exact ih _ (fun e2 he2 => hall e2 (List.mem_cons_of_mem _ he2)) hsx hstep

theorem restoreFold_some_hit (store : List (Segs × Nat)) {q : Segs} {x : Nat} :
    ∀ (fm : List (Segs × Entry)) (acc : List (Segs × Nat) × Nat),
      (∀ e, (q, e) ∈ fm → e.backup = some q) → getA store q = some x →
      (∃ e, (q, e) ∈ fm) →
      getA ((fm.foldl (restoreEntryStep store) acc).1) q = some x := by
  intro fm
  induction fm with
  | nil =>
      intro acc _ _ hex
      obtain ⟨e, he⟩ := hex
      simp at he
  | cons hd tl ih =>
      intro acc hall hsx hex
      obtain ⟨k, e⟩ := hd
      rw [List.foldl_cons]
      by_cases hk : k = q
      · subst hk
        have hb : e.backup = some k := hall e (List.mem_cons_self _ _)
        have hstep : getA (restoreEntryStep store acc (k, e)).1 k = some x := by
          simp only [restoreEntryStep, hb, hsx]
          exact getA_setA_self _ _ _
        exact restoreFold_some_pres store tl _
          (fun e2 he2 => hall e2 (List.mem_cons_of_mem _ he2)) hsx hstep
      · obtain ⟨e0, he0⟩ := hex
        rcases List.mem_cons.mp he0 with heq | he0t
        · exact absurd (congrArg Prod.fst heq).symm hk
        · exact ih _ (fun e2 he2 => hall e2 (List.mem_cons_of_mem _ he2)) hsx ⟨e0, he0t⟩

theorem restoreFold_none_zero (store : List (Segs × Nat)) {q : Segs} :
    ∀ (fm : List (Segs × Entry)) (acc : List (Segs × Nat) × Nat),
      (∀ e, (q, e) ∈ fm → e.backup = none) → getA acc.1 q = none →
      getA ((fm.foldl (restoreEntryStep store) acc).1) q = none := by
  intro fm
  induction fm with
  | nil => intro acc _ h; exact h
  | cons hd tl ih =>
      intro acc hall hacc
      obtain ⟨k, e⟩ := hd
      rw [List.foldl_cons]
      by_cases hk : k = q
      · subst hk
        have hb : e.backup = none := hall e (List.mem_cons_self _ _)
        have hstep : getA (restoreEntryStep store acc (k, e)).1 k = none := by
          simp only [restoreEntryStep, hb, hacc]
        exact ih _ (fun e2 he2 => hall e2 (List.mem_cons_of_mem _ he2)) hstep
      · have hstep : getA (restoreEntryStep store acc (k, e)).1 q = none := by
          rw [restoreEntryStep_game_ne _ _ _ hk]
          exact hacc
        exact ih _ (fun e2 he2 => hall e2 (List.mem_cons_of_mem _ he2)) hstep

theorem restoreFold_none_hit (store : List (Segs × Nat)) {q : Segs} :
    ∀ (fm : List (Segs × Entry)) (acc : List (Segs × Nat) × Nat),
      (∀ e, (q, e) ∈ fm → e.backup = none) →
      acc.1.countP (fun x => decide (x.1 = q)) ≤ 1 →
      (∃ e, (q, e) ∈ fm) →
      getA ((fm.foldl (restoreEntryStep store) acc).1) q = none := by
  intro fm
  induction fm with
  | nil =>
      intro acc _ _ hex
      obtain ⟨e, he⟩ := hex
      simp at he
  | cons hd tl ih =>
      intro acc hall hcnt hex
      obtain ⟨k, e⟩ := hd
      rw [List.foldl_cons]
      by_cases hk : k = q
      · subst hk
        have hb : e.backup = none := hall e (List.mem_cons_self _ _)
        cases hg : getA acc.1 k with
        | none =>
            have hstep : getA (restoreEntryStep store acc (k, e)).1 k = none := by
              simp only [restoreEntryStep, hb, hg]
            exact restoreFold_none_zero store tl _
              (fun e2 he2 => hall e2 (List.mem_cons_of_mem _ he2)) hstep
        | some v =>
            have hstep : getA (restoreEntryStep store acc (k, e)).1 k = none := by
              simp only [restoreEntryStep, hb, hg]
              exact getA_removeA_self_of_le_one _ _ hcnt
            exact restoreFold_none_zero store tl _
              (fun e2 he2 => hall e2 (List.mem_cons_of_mem _ he2)) hstep
      · obtain ⟨e0, he0⟩ := hex
        rcases List.mem_cons.mp he0 with heq | he0t
        · exact absurd (congrArg Prod.fst heq).symm hk
        · exact ih _ (fun e2 he2 => hall e2 (List.mem_cons_of_mem _ he2))
            (Nat.le_trans (restoreEntryStep_count_le _ _ _ hk) hcnt) ⟨e0, he0t⟩

/-- Amended claim C1: for a destination that existed before any deploy,
the original is preserved along any restore-free sequence of deploys —
either the path is still untouched with the original in place, or its
ledger entry records the path's own backup key and the backup store
still holds the original; and once a backup is recorded for a path,
every further deploy leaves the recorded backup and the stored content
unchanged.  (For paths with a null-backup entry the code re-captures;
see the counterexample.) -/
theorem backupOnce_amended (root : ModsRoot) (batches : List (List String)) (st : AState)
    (q : Segs) (c : Nat) :
    (PreservedOriginal st q c →
        PreservedOriginal
          (batches.foldl (fun s en => deployAssetsWithReceipt root en s) st) q c)
    ∧ (RecordedBackup st q c →
        RecordedBackup
          (batches.foldl (fun s en => deployAssetsWithReceipt root en s) st) q c) := by
  constructor
  · intro h
    exact foldl_pres (fun s => PreservedOriginal s q c) _ _ _
      (fun a b hp => preservedOriginal_deployAssets root b a hp) h
  · intro h
    exact foldl_pres (fun s => RecordedBackup s q c) _ _ _
      (fun a b hp => recordedBackup_deployAssets root b a hp) h

/-- Witness for the amended C1: the state after twice deploying the mod
over a game tree that held 7 has the backup recorded, and a further
deploy batch leaves the record intact. -/
theorem backupOnce_amended_witness :
    RecordedBackup
      (deployAssetsWithReceipt exC1root ["m"]
        (deployAssetsWithReceipt exC1root ["m"] ⟨[(["resources", "a.txt"], 7)], [], []⟩))
      ["resources", "a.txt"] 7
    ∧ RecordedBackup
        ([["m"]].foldl (fun s en => deployAssetsWithReceipt exC1root en s)
          (deployAssetsWithReceipt exC1root ["m"]
            (deployAssetsWithReceipt exC1root ["m"] ⟨[(["resources", "a.txt"], 7)], [], []⟩)))
        ["resources", "a.txt"] 7 := by
  have hrec : RecordedBackup
      (deployAssetsWithReceipt exC1root ["m"]
        (deployAssetsWithReceipt exC1root ["m"] ⟨[(["resources", "a.txt"], 7)], [], []⟩))
      ["resources", "a.txt"] 7 := by
    refine ⟨⟨⟨some ["resources", "a.txt"], ["m"]⟩, by decide⟩, ?_, by decide⟩
    intro e he
    have hfm : (deployAssetsWithReceipt exC1root ["m"]
        (deployAssetsWithReceipt exC1root ["m"]
          ⟨[(["resources", "a.txt"], 7)], [], []⟩)).filesMap =
        [(["resources", "a.txt"], ⟨some ["resources", "a.txt"], ["m"]⟩)] := by decide
    rw [hfm] at he
    simp at he
    rw [he]
  exact ⟨hrec, (backupOnce_amended exC1root [["m"]] _ ["resources", "a.txt"] 7).2 hrec⟩

/-- Amended claim C2: from a state whose ledger and backup store know
nothing of destination `q`, for any enabled set: if `q` held content `x`
before the deploy then `deploy ; restore` leaves `q` holding `x` again
(even when several mods write `q`); if `q` did not exist and at most one
write event of the deploy hits `q`, restore removes `q` entirely; and
the receipt's `files` map is empty after restore.  (With two or more
writers of a fresh path, restore re-installs the first mod's content;
see the counterexample.) -/
theorem restoreRoundTrip_amended (root : ModsRoot) (enabled : List String) (st0 : AState)
    (q : Segs) (hfm : getA st0.filesMap q = none) (hbs : getA st0.backupStore q = none) :
    (∀ x, getA st0.game q = some x →
        getA ((restoreAssetsWithReceipt
          (deployAssetsWithReceipt root enabled st0)).1).game q = some x)
    ∧ (getA st0.game q = none → qWriteCount root enabled q ≤ 1 →
        getA ((restoreAssetsWithReceipt
          (deployAssetsWithReceipt root enabled st0)).1).game q = none)
    ∧ ((restoreAssetsWithReceipt
          (deployAssetsWithReceipt root enabled st0)).1).filesMap = [] := by
  by_cases hemp : (deployAssetsWithReceipt root enabled st0).filesMap = []
  · rw [restoreAssetsWithReceipt, if_pos hemp]
    refine ⟨?_, ?_, hemp⟩
    · intro x hx
      rcases preservedOriginal_deployAssets root enabled st0
          (Or.inl ⟨hx, hfm, hbs⟩) with ⟨hg1, _, _⟩ | ⟨⟨e, he⟩, _, _⟩
      · exact hg1
      · rw [hemp] at he
        simp at he
    · intro hg0 hcnt
      rcases deployAssets_fresh_le_one root enabled st0 hcnt ⟨hg0, hfm, hbs⟩ with
        ⟨hg1, _, _⟩ | ⟨⟨e, he⟩, _, _, _⟩
      · exact hg1
      · rw [hemp] at he
        simp at he
  · rw [restoreAssetsWithReceipt, if_neg hemp]
    refine ⟨?_, ?_, rfl⟩
    · intro x hx
      rcases preservedOriginal_deployAssets root enabled st0
          (Or.inl ⟨hx, hfm, hbs⟩) with ⟨hg1, hfm1, _⟩ | ⟨hex, hall, hst⟩
      · show getA (((deployAssetsWithReceipt root enabled st0).filesMap).foldl
          (restoreEntryStep (deployAssetsWithReceipt root enabled st0).backupStore)
          ((deployAssetsWithReceipt root enabled st0).game, 0)).1 q = some x
        rw [restoreFold_ne _ _ _ (fun pe hpe => (getA_eq_none_iff _ _).mp hfm1 pe hpe)]
        exact hg1
      · exact restoreFold_some_hit _ _ _ hall hst hex
    · intro hg0 hcnt
      rcases deployAssets_fresh_le_one root enabled st0 hcnt ⟨hg0, hfm, hbs⟩ with
        ⟨hg1, hfm1, _⟩ | ⟨hex, hall, _, hcnt1⟩
      · show getA (((deployAssetsWithReceipt root enabled st0).filesMap).foldl
          (restoreEntryStep (deployAssetsWithReceipt root enabled st0).backupStore)
          ((deployAssetsWithReceipt root enabled st0).game, 0)).1 q = none
        rw [restoreFold_ne _ _ _ (fun pe hpe => (getA_eq_none_iff _ _).mp hfm1 pe hpe)]
        exact hg1
      · exact restoreFold_none_hit _ _ _ hall hcnt1 hex

/-- Witness for the amended C2: an original content 9 at the contested
destination survives a two-mod deploy followed by restore. -/
theorem restoreRoundTrip_amended_witness :
    getA exC2stA.filesMap ["resources", "f"] = none
    ∧ getA exC2stA.backupStore ["resources", "f"] = none
    ∧ getA ((restoreAssetsWithReceipt
        (deployAssetsWithReceipt exC2root ["m1", "m2"] exC2stA)).1).game
        ["resources", "f"] = some 9 :=
  ⟨by decide, by decide,
   (restoreRoundTrip_amended exC2root ["m1", "m2"] exC2stA ["resources", "f"]
      (by decide) (by decide)).1 9 (by decide)⟩
